import Mathlib

/-!
Shallow embedding, in Lean 4, of the hipBLAS client test harness:
the matrix/vector initializers and layout converters of the clients'
common initialization header, the quick-return / bad-argument logic of
the `testing_hemv`, `testing_syrk_strided_batched` and `testing_geam`
drivers, and the `error_tolerance` table of `near.h`.

Machine scalars are modelled as exact rationals (`ℚ`), complex scalars as
pairs of rationals.  Matrix and vector buffers are modelled as total
stores (`ℕ → ℚ` for flat column-major buffers indexed by `i + j * lda`,
`ℤ → ℚ` for vectors addressed relative to a base pointer that may be
moved backwards for negative increments).  The process-wide random
generator is modelled as an explicit stream `g : ℕ → ℚ` together with a
cursor threaded through every loop exactly where the C++ code calls
`random_generator()`.
-/

/-- Status codes of the routine-dispatch interface (`hipblasStatus_t`),
restricted to the constructors the embedded drivers mention. -/
inductive HStatus where
  | success
  | notInitialized
  | invalidValue
  | invalidEnum
deriving DecidableEq, Repr

/-- A pointer argument: `none` is `nullptr`, `some id` is a (device or host)
buffer identified by `id`.  Two arguments alias iff they carry the same id. -/
abbrev Ptr := Option ℕ

/-- A flat column-major buffer of rational scalars. -/
abbrev Store := ℕ → ℚ

/-- A complex scalar as a pair (real part, imaginary part) of rationals. -/
abbrev CQ := ℚ × ℚ

/-- A flat column-major buffer of complex scalars. -/
abbrev CStore := ℕ → CQ

/-- Complex conjugation (`hipblas_conjugate`). -/
def cconj (v : CQ) : CQ := (v.1, -v.2)

/-- Real part, re-stored as a complex value (`hipblas_real` assigned back
into a complex matrix entry). -/
def creal (v : CQ) : CQ := (v.1, 0)

/-! ## Error-tolerance table (`near.h`) -/

/-- Precision tags of the harness. -/
inductive Precision where
  | half
  | bfloat16
  | single
  | double
  | singleComplex
  | doubleComplex
deriving DecidableEq, Repr

/-- `error_tolerance` from `near.h`: the primary template is the constant
`0.0` for every type; the sole specialization, for `hipblasHalf`, is the
decimal literal `0.000061035`. -/
def error_tolerance : Precision → ℚ
  | .half => 61035 / 1000000000
  | _ => 0

/-! ## Vector initializers (negative-increment base adjustment)

`hipblas_init_vector`, `hipblas_init_vector_alternating_sign` and the
per-batch body of `hipblas_init_template` all begin with
`if(incx < 0) x -= (N - 1) * incx;` and then write `x[j * incx]` for
`j = 0 .. N-1`.  `init_vector_offset` is that write offset relative to
the original base pointer. -/

/-- Offset, relative to the unadjusted base pointer, of the `j`-th write of
the vector initializers. -/
def init_vector_offset (N : ℕ) (incx : ℤ) (j : ℕ) : ℤ :=
  (if incx < 0 then -(((N : ℤ) - 1) * incx) else 0) + (j : ℤ) * incx

/-- `hipblas_init_vector(rand_gen, x, N, incx)`: adjust the base pointer for
negative increments, then write one generated value per element. -/
def hipblas_init_vector (g : ℕ → ℚ) (x : ℤ → ℚ) (N : ℕ) (incx : ℤ) : ℤ → ℚ :=
  (List.range N).foldl (fun s j => Function.update s (init_vector_offset N incx j) (g j)) x

/-- `hipblas_init_vector_alternating_sign(rand_gen, x, N, incx)`: same
traversal, negating the generated value at even positions
(`j & 1 ? value : negate(value)`). -/
def hipblas_init_vector_alternating_sign (g : ℕ → ℚ) (x : ℤ → ℚ) (N : ℕ) (incx : ℤ) : ℤ → ℚ :=
  (List.range N).foldl
    (fun s j =>
      Function.update s (init_vector_offset N incx j) (if j % 2 = 1 then g j else -(g j)))
    x

/-- The body of `hipblas_init_template` for one batch index: the batch's
base pointer is adjusted for a negative increment and the `n` elements are
written at `i * inc`, optionally with the alternating-sign pattern
`(i ^ 0) & 1 ? value : negate(value)`. -/
def hipblas_init_template_batch (g : ℕ → ℚ) (x : ℤ → ℚ) (n : ℕ) (inc : ℤ)
    (alternating_sign : Bool) : ℤ → ℚ :=
  (List.range n).foldl
    (fun s i =>
      Function.update s (init_vector_offset n inc i)
        (if alternating_sign then (if i % 2 = 1 then g i else -(g i)) else g i))
    x

/-! ## Execution-driver quick-return logic

Each `testing_<routine>` driver computes an `invalid_size` predicate and,
when the size is invalid or a designated shape parameter is zero, performs
a single invocation with every operand and scalar pointer `nullptr`,
asserts the expected status, and returns before any buffer is allocated.
`DriverOutcome.quickReturn` records that single null-pointer invocation
(its pointer arguments in source order, and the status the driver asserts);
`DriverOutcome.fullRun` is the path that allocates and initializes buffers. -/

/-- The single argument-checking invocation a driver performs on its
quick-return path. -/
structure QuickCall where
  ptrs : List Ptr
  expected : HStatus
deriving DecidableEq, Repr

/-- Outcome of a driver's argument sanity check. -/
inductive DriverOutcome where
  | quickReturn (call : QuickCall)
  | fullRun
deriving DecidableEq, Repr

/-- `invalid_size` of `testing_hemv`:
`N < 0 || lda < N || lda < 1 || !incx || !incy`. -/
def hemv_invalid_size (N lda incx incy : ℤ) : Bool :=
  decide (N < 0) || decide (lda < N) || decide (lda < 1) ||
    decide (incx = 0) || decide (incy = 0)

/-- Quick-return logic of `testing_hemv`: `if(invalid_size || !N)` invoke
once with `alpha, A, x, beta, y` all null and expect
`invalid_size ? HIPBLAS_STATUS_INVALID_VALUE : HIPBLAS_STATUS_SUCCESS`. -/
def testing_hemv_driver (N lda incx incy : ℤ) : DriverOutcome :=
  if hemv_invalid_size N lda incx incy || decide (N = 0) then
    .quickReturn
      ⟨[none, none, none, none, none],
        if hemv_invalid_size N lda incx incy then .invalidValue else .success⟩
  else .fullRun

/-- `invalid_size` of `testing_syrk_strided_batched` (`transA_isN` true means
`transA == HIPBLAS_OP_N`): `N < 0 || K < 0 || ldc < N ||
(transA == OP_N && lda < N) || (transA != OP_N && lda < K) || batch_count < 0`. -/
def syrk_sb_invalid_size (transA_isN : Bool) (N K lda ldc batch_count : ℤ) : Bool :=
  decide (N < 0) || decide (K < 0) || decide (ldc < N) ||
    (transA_isN && decide (lda < N)) || (!transA_isN && decide (lda < K)) ||
    decide (batch_count < 0)

/-- Quick-return logic of `testing_syrk_strided_batched`:
`if(invalid_size || !N || !batch_count)` invoke once with
`alpha, A, beta, C` all null and expect
`invalid_size ? INVALID_VALUE : SUCCESS`. -/
def testing_syrk_strided_batched_driver (transA_isN : Bool)
    (N K lda ldc batch_count : ℤ) : DriverOutcome :=
  if syrk_sb_invalid_size transA_isN N K lda ldc batch_count ||
      decide (N = 0) || decide (batch_count = 0) then
    .quickReturn
      ⟨[none, none, none, none],
        if syrk_sb_invalid_size transA_isN N K lda ldc batch_count then .invalidValue
        else .success⟩
  else .fullRun

/-- `invalid_size` of `testing_geam` (`transA_isN`/`transB_isN` true means
`HIPBLAS_OP_N`): `M < 0 || N < 0 || lda < A_row || ldb < B_row || ldc < M`
where `A_row = transA == OP_N ? M : N` and likewise for `B_row`. -/
def geam_invalid_size (transA_isN transB_isN : Bool) (M N lda ldb ldc : ℤ) : Bool :=
  decide (M < 0) || decide (N < 0) ||
    decide (lda < (if transA_isN then M else N)) ||
    decide (ldb < (if transB_isN then M else N)) ||
    decide (ldc < M)

/-- Quick-return logic of `testing_geam`: `if(invalid_size || !N || !M)`
invoke once with `alpha, A, beta, B, C` all null and expect
`invalid_size ? INVALID_VALUE : SUCCESS`. -/
def testing_geam_driver (transA_isN transB_isN : Bool) (M N lda ldb ldc : ℤ) : DriverOutcome :=
  if geam_invalid_size transA_isN transB_isN M N lda ldb ldc ||
      decide (N = 0) || decide (M = 0) then
    .quickReturn
      ⟨[none, none, none, none, none],
        if geam_invalid_size transA_isN transB_isN M N lda ldb ldc then .invalidValue
        else .success⟩
  else .fullRun

/-! ## Bad-argument suites

`testing_<routine>_bad_arg` issues a fixed sequence of invocations with
exactly one perturbed argument each and asserts the expected status.  Each
suite is embedded as the ordered list of those invocations; the parameters
mirror the flags the C++ code branches on (`arg.bad_arg_all`,
`pointer_mode == HIPBLAS_POINTER_MODE_HOST`, `arg.api & c_API_64`), and
`ci32` stands for the `c_i32_overflow` constant used by the 64-bit
interface probes. -/

/-- A fill-mode argument: the two legal values, `HIPBLAS_FILL_MODE_FULL`
(legal enum value, invalid for these routines), and an operation enum value
cast to the fill-mode type (an invalid enum). -/
inductive FillArg where
  | upper
  | lower
  | full
  | castOpN
deriving DecidableEq, Repr

/-- A transpose-operation argument: `HIPBLAS_OP_N` or a fill-mode enum value
cast to the operation type (an invalid enum). -/
inductive TransArg where
  | opN
  | castFillFull
deriving DecidableEq, Repr

/-- One invocation of the hemv routine by `testing_hemv_bad_arg`:
scalar pointers are `Option ℚ` (`none` = `nullptr`), operand pointers are
`Ptr`. -/
structure HemvCall where
  handle : Ptr
  uplo : FillArg
  N : ℤ
  alpha : Option ℚ
  A : Ptr
  lda : ℤ
  x : Ptr
  incx : ℤ
  beta : Option ℚ
  y : Ptr
  incy : ℤ
  expected : HStatus
deriving DecidableEq, Repr

/-- The well-formed base invocation of `testing_hemv_bad_arg`
(`uplo = upper, N = 100, lda = 100, incx = incy = 1, alpha = 1, beta = 2`,
all buffers allocated). -/
def hemvBase : HemvCall :=
  { handle := some 0, uplo := .upper, N := 100, alpha := some 1, A := some 1, lda := 100,
    x := some 2, incx := 1, beta := some 2, y := some 3, incy := 1, expected := .success }

/-- `testing_hemv_bad_arg`'s "with alpha == 0 can have A and x nullptr"
invocation. -/
def hemv_alpha_zero_call : HemvCall :=
  { hemvBase with alpha := some 0, A := none, x := none, expected := .success }

/-- `testing_hemv_bad_arg`'s "with alpha == 0 && beta == 1, all other ptrs
can be nullptr" invocation. -/
def hemv_alpha_zero_beta_one_call : HemvCall :=
  { hemvBase with
      alpha := some 0, A := none, x := none, beta := some 1, y := none,
      expected := .success }

/-- `testing_hemv_bad_arg`'s "with N == 0, can have all nullptrs"
invocation. -/
def hemv_N_zero_call : HemvCall :=
  { hemvBase with
      N := 0, alpha := none, A := none, x := none, beta := none, y := none,
      expected := .success }

/-- The invocation sequence of `testing_hemv_bad_arg` for one pointer mode,
in source order. -/
def testing_hemv_bad_arg (bad_arg_all hostMode : Bool) : List HemvCall :=
  [ { hemvBase with handle := none, expected := .notInitialized },
    { hemvBase with uplo := .full, expected := .invalidValue },
    { hemvBase with uplo := .castOpN, expected := .invalidEnum } ]
  ++ (if bad_arg_all then
        [ { hemvBase with alpha := none, expected := .invalidValue },
          { hemvBase with beta := none, expected := .invalidValue } ]
        ++ (if hostMode then
              [ { hemvBase with A := none, expected := .invalidValue },
                { hemvBase with x := none, expected := .invalidValue },
                { hemvBase with y := none, expected := .invalidValue } ]
            else [])
        ++ [hemv_alpha_zero_call, hemv_alpha_zero_beta_one_call]
      else [])
  ++ [hemv_N_zero_call]

/-- One invocation of the syrk-strided-batched routine by
`testing_syrk_strided_batched_bad_arg`. -/
structure SyrkSBCall where
  handle : Ptr
  uplo : FillArg
  transA : TransArg
  N : ℤ
  K : ℤ
  alpha : Option ℚ
  A : Ptr
  lda : ℤ
  strideA : ℤ
  beta : Option ℚ
  C : Ptr
  ldc : ℤ
  strideC : ℤ
  batch_count : ℤ
  expected : HStatus
deriving DecidableEq, Repr

/-- The well-formed base invocation of `testing_syrk_strided_batched_bad_arg`
(`N = 101, K = 100, lda = 102, ldc = 104, batch_count = 2,
strideA = K * lda, strideC = N * ldc, alpha = 1, beta = 2`). -/
def syrkSBBase : SyrkSBCall :=
  { handle := some 0, uplo := .lower, transA := .opN, N := 101, K := 100, alpha := some 1,
    A := some 1, lda := 102, strideA := 10200, beta := some 2, C := some 2, ldc := 104,
    strideC := 10504, batch_count := 2, expected := .success }

/-- `testing_syrk_strided_batched_bad_arg`'s "if k == 0 && beta == 1, A, C
may be nullptr" invocation. -/
def syrk_k_zero_beta_one_call : SyrkSBCall :=
  { syrkSBBase with K := 0, A := none, beta := some 1, C := none, expected := .success }

/-- `testing_syrk_strided_batched_bad_arg`'s "if alpha == 0 && beta == 1,
A, C may be nullptr" invocation. -/
def syrk_alpha_zero_beta_one_call : SyrkSBCall :=
  { syrkSBBase with
      alpha := some 0, A := none, beta := some 1, C := none,
      expected := .success }

/-- `testing_syrk_strided_batched_bad_arg`'s "N == 0, can have nullptrs"
invocation. -/
def syrk_N_zero_call : SyrkSBCall :=
  { syrkSBBase with
      N := 0, alpha := none, A := none, beta := none, C := none,
      expected := .success }

/-- `testing_syrk_strided_batched_bad_arg`'s "batch_count == 0, can have
nullptrs" invocation. -/
def syrk_batch_count_zero_call : SyrkSBCall :=
  { syrkSBBase with
      batch_count := 0, alpha := none, A := none, beta := none, C := none,
      expected := .success }

/-- The invocation sequence of `testing_syrk_strided_batched_bad_arg` for one
pointer mode, in source order. -/
def testing_syrk_sb_bad_arg (bad_arg_all hostMode api64 : Bool) (ci32 : ℤ) :
    List SyrkSBCall :=
  [ { syrkSBBase with handle := none, expected := .notInitialized },
    { syrkSBBase with uplo := .full, expected := .invalidValue },
    { syrkSBBase with uplo := .castOpN, expected := .invalidEnum },
    { syrkSBBase with transA := .castFillFull, expected := .invalidEnum } ]
  ++ (if bad_arg_all then
        [ { syrkSBBase with alpha := none, expected := .invalidValue },
          { syrkSBBase with beta := none, expected := .invalidValue } ]
        ++ (if hostMode then
              [ { syrkSBBase with A := none, expected := .invalidValue },
                { syrkSBBase with C := none, expected := .invalidValue } ]
            else [])
        ++ [ syrk_k_zero_beta_one_call,
             syrk_alpha_zero_beta_one_call,
             { syrkSBBase with
                 N := ci32, K := ci32, alpha := some 0, A := none, lda := ci32,
                 beta := some 1, C := none, ldc := ci32, batch_count := ci32,
                 expected := if api64 then .success else .invalidValue } ]
      else [])
  ++ [syrk_N_zero_call, syrk_batch_count_zero_call]

/-- One invocation of the geam routine by `testing_geam_bad_arg`. -/
structure GeamCall where
  handle : Ptr
  transA : TransArg
  transB : TransArg
  M : ℤ
  N : ℤ
  alpha : Option ℚ
  A : Ptr
  lda : ℤ
  beta : Option ℚ
  B : Ptr
  ldb : ℤ
  C : Ptr
  ldc : ℤ
  expected : HStatus
deriving DecidableEq, Repr

/-- The well-formed base invocation of `testing_geam_bad_arg`
(`M = 101, N = 100, lda = 102, ldb = 103, ldc = 104, alpha = 1, beta = 2`). -/
def geamBase : GeamCall :=
  { handle := some 0, transA := .opN, transB := .opN, M := 101, N := 100, alpha := some 1,
    A := some 1, lda := 102, beta := some 2, B := some 2, ldb := 103, C := some 3, ldc := 104,
    expected := .success }

/-- `testing_geam_bad_arg`'s "alpha == 0, can have A be nullptr"
invocation. -/
def geam_alpha_zero_call : GeamCall :=
  { geamBase with alpha := some 0, A := none, expected := .success }

/-- `testing_geam_bad_arg`'s "beta == 0 can have B be nullptr"
invocation. -/
def geam_beta_zero_call : GeamCall :=
  { geamBase with beta := some 0, B := none, expected := .success }

/-- `testing_geam_bad_arg`'s final `M == 0` quick-return invocation (all
pointers null, `lda == ldb == ldc`). -/
def geam_M_zero_call : GeamCall :=
  { geamBase with
      M := 0, alpha := none, A := none, beta := none, B := none, C := none,
      ldb := 102, ldc := 102, expected := .success }

/-- `testing_geam_bad_arg`'s final `N == 0` quick-return invocation (all
pointers null, `lda == ldb == ldc`). -/
def geam_N_zero_call : GeamCall :=
  { geamBase with
      N := 0, alpha := none, A := none, beta := none, B := none, C := none,
      ldb := 102, ldc := 102, expected := .success }

/-- The invocation sequence of `testing_geam_bad_arg` for one pointer mode,
in source order.  The aliasing probes pass `dA` (resp. `dB`) for `dC`. -/
def testing_geam_bad_arg (bad_arg_all hostMode api64 : Bool) (ci32 : ℤ) : List GeamCall :=
  [ { geamBase with handle := none, expected := .notInitialized },
    { geamBase with transA := .castFillFull, expected := .invalidEnum },
    { geamBase with transB := .castFillFull, expected := .invalidEnum } ]
  ++ (if bad_arg_all then
        [ { geamBase with C := some 1, ldc := 103, expected := .invalidValue },
          { geamBase with C := some 2, ldc := 104, expected := .invalidValue },
          { geamBase with alpha := none, expected := .invalidValue },
          { geamBase with beta := none, expected := .invalidValue },
          { geamBase with C := none, expected := .invalidValue } ]
        ++ (if hostMode then
              [ { geamBase with A := none, expected := .invalidValue },
                { geamBase with B := none, expected := .invalidValue } ]
            else [])
        ++ [ geam_alpha_zero_call,
             geam_beta_zero_call,
             { geamBase with
                 M := 0, N := ci32, alpha := none, A := none, lda := ci32,
                 beta := none, B := none, ldb := ci32, C := none, ldc := ci32,
                 expected := if api64 then .success else .invalidValue },
             { geamBase with
                 M := ci32, N := 0, alpha := none, A := none, lda := ci32,
                 beta := none, B := none, ldb := ci32, C := none, ldc := ci32,
                 expected := if api64 then .success else .invalidValue } ]
      else [])
  ++ [geam_M_zero_call, geam_N_zero_call]

/-! ## Diagonally-dominant triangular initialization

The `hipblas_diagonally_dominant_triangular_matrix` branch of
`hipblas_init_matrix` first fills the selected triangle with generated
values (zeroes outside it), then overwrites each diagonal entry with
`1.01` times the sum of the absolute values of the off-diagonal entries of
its stored row and column, or with `1` when that sum is zero. -/

/-- Phase 1 of the diagonally-dominant branch: column-major double loop
(`for j < N { for i < M { ... } }`) writing
`uplo == 'U' ? (j >= i ? rand_gen() : 0) : (j <= i ? rand_gen() : 0)`
at `A[i + j*lda]`.  The generator is invoked only on triangle entries. -/
def fill_triangular_random (upper : Bool) (g : ℕ → ℚ) (M N lda : ℕ)
    (s0 : Store × ℕ) : Store × ℕ :=
  (List.range N).foldl
    (fun s j =>
      (List.range M).foldl
        (fun s i =>
          if (if upper then i ≤ j else j ≤ i) then
            (Function.update s.1 (i + j * lda) (g s.2), s.2 + 1)
          else
            (Function.update s.1 (i + j * lda) 0, s.2))
        s)
    s0

/-- `abs_sum_off_diagonal_row` for diagonal entry `i`, upper fill:
sum of `|A[i + j*lda]|` over `j = i+1 .. N-1`. -/
def dd_row_sum_upper (A : Store) (N lda i : ℕ) : ℚ :=
  ((List.range' (i + 1) (N - (i + 1))).map (fun j => |A (i + j * lda)|)).sum

/-- `abs_sum_off_diagonal_col` for diagonal entry `i`, upper fill:
sum of `|A[j + i*lda]|` over `j = 0 .. i-1`. -/
def dd_col_sum_upper (A : Store) (lda i : ℕ) : ℚ :=
  ((List.range i).map (fun j => |A (j + i * lda)|)).sum

/-- Phase 2 for `uplo == 'U'`: for each `i`,
`A[i + i*lda] = (row + col) == 0 ? 1 : (row + col) * 1.01`. -/
def dd_diag_upper (N lda : ℕ) (A : Store) : Store :=
  (List.range N).foldl
    (fun s i =>
      Function.update s (i + i * lda)
        (if dd_row_sum_upper s N lda i + dd_col_sum_upper s lda i = 0 then 1
         else (dd_row_sum_upper s N lda i + dd_col_sum_upper s lda i) * (101 / 100)))
    A

/-- `abs_sum_off_diagonal_col` for diagonal entry `j`, lower fill:
sum of `|A[i + j*lda]|` over `i = j+1 .. N-1`. -/
def dd_col_sum_lower (A : Store) (N lda j : ℕ) : ℚ :=
  ((List.range' (j + 1) (N - (j + 1))).map (fun i => |A (i + j * lda)|)).sum

/-- `abs_sum_off_diagonal_row` for diagonal entry `j`, lower fill:
sum of `|A[j + i*lda]|` over `i = 0 .. j-1`. -/
def dd_row_sum_lower (A : Store) (lda j : ℕ) : ℚ :=
  ((List.range j).map (fun i => |A (j + i * lda)|)).sum

/-- Phase 2 for `uplo == 'L'`: for each `j`,
`A[j + j*lda] = (row + col) == 0 ? 1 : (row + col) * 1.01`. -/
def dd_diag_lower (N lda : ℕ) (A : Store) : Store :=
  (List.range N).foldl
    (fun s j =>
      Function.update s (j + j * lda)
        (if dd_row_sum_lower s lda j + dd_col_sum_lower s N lda j = 0 then 1
         else (dd_row_sum_lower s lda j + dd_col_sum_lower s N lda j) * (101 / 100)))
    A

/-- The full diagonally-dominant-triangular branch for one batch instance. -/
def fill_dd_matrix (upper : Bool) (g : ℕ → ℚ) (M N lda : ℕ) (A : Store) (c : ℕ) :
    Store × ℕ :=
  let s := fill_triangular_random upper g M N lda (A, c)
  ((if upper then dd_diag_upper N lda s.1 else dd_diag_lower N lda s.1), s.2)

/-- `hipblas_init_matrix` restricted to the diagonally-dominant-triangular
matrix type: each batch instance `hA[b]` is an independently owned buffer,
filled in batch order with the single process-wide generator threaded
through. -/
def hipblas_init_matrix_dd (upper : Bool) (g : ℕ → ℚ) (M N lda : ℕ) :
    List Store → ℕ → List Store × ℕ
  | [], c => ([], c)
  | A :: rest, c =>
    let s := fill_dd_matrix upper g M N lda A c
    let r := hipblas_init_matrix_dd upper g M N lda rest s.2
    (s.1 :: r.1, r.2)

/-- The sum, over the whole row `i`, of the absolute values of the
off-diagonal entries `|B[i + j*lda]|`, `j ≠ i` (the quantity the dominance
property of the spec compares against the diagonal). -/
def row_offdiag_abs_sum (B : Store) (N lda i : ℕ) : ℚ :=
  ((List.range N).map (fun j => if j = i then 0 else |B (i + j * lda)|)).sum

/-- The sum, over the whole column `i`, of the absolute values of the
off-diagonal entries `|B[r + i*lda]|`, `r ≠ i`. -/
def col_offdiag_abs_sum (B : Store) (N lda i : ℕ) : ℚ :=
  ((List.range N).map (fun r => if r = i then 0 else |B (r + i * lda)|)).sum

/-! ## Hermitian / symmetric initialization

The `hipblas_hermitian_matrix` and `hipblas_symmetric_matrix` branches of
`hipblas_init_matrix` share one loop shape
(`for i < N { for j <= i { value = rand_gen(); ... } }`) and differ only
in what is stored on the diagonal (`hipblas_real(value)` vs `value`) and
what the final `else` branch stores at the mirrored position
(`hipblas_conjugate(value)` vs `value`).  `fill_mirrored` is that shared
shape; the two branches are its two instances. -/

/-- Shared loop of the hermitian/symmetric branches. `diagV` is applied to
the generated value on the diagonal; `mirrorV` is applied to the generated
value at the mirrored position when `uplo` is neither `'U'` nor `'L'`. -/
def fill_mirrored (diagV mirrorV : CQ → CQ) (uplo : Char) (g : ℕ → CQ) (N lda : ℕ)
    (s0 : CStore × ℕ) : CStore × ℕ :=
  (List.range N).foldl
    (fun s i =>
      (List.range (i + 1)).foldl
        (fun s j =>
          let value := g s.2
          let s1 :=
            if i = j then
              Function.update s.1 (j + i * lda) (diagV value)
            else if uplo = 'U' then
              Function.update (Function.update s.1 (j + i * lda) value) (i + j * lda) (0, 0)
            else if uplo = 'L' then
              Function.update (Function.update s.1 (j + i * lda) (0, 0)) (i + j * lda) value
            else
              Function.update (Function.update s.1 (j + i * lda) value) (i + j * lda)
                (mirrorV value)
          (s1, s.2 + 1))
        s)
    s0

/-- The `hipblas_hermitian_matrix` branch of `hipblas_init_matrix`:
diagonal entries are forced real, the final `else` branch conjugates. -/
def fill_hermitian : Char → (ℕ → CQ) → ℕ → ℕ → CStore × ℕ → CStore × ℕ :=
  fill_mirrored creal cconj

/-- The `hipblas_symmetric_matrix` branch of `hipblas_init_matrix`:
diagonal entries keep the generated value, the final `else` branch copies. -/
def fill_symmetric : Char → (ℕ → CQ) → ℕ → ℕ → CStore × ℕ → CStore × ℕ :=
  fill_mirrored (fun v => v) (fun v => v)

/-! ## Dense-to-packed conversion (`regular_to_packed`) -/

/-- Upper inner loop of `regular_to_packed`: for column `i`, rows
`j = 0 .. i`, `AP[index++] = A[j + i*n]`. -/
def pack_col_upper (A : Store) (n i : ℕ) (s : Store × ℕ) : Store × ℕ :=
  (List.range (i + 1)).foldl
    (fun s j => (Function.update s.1 s.2 (A (j + i * n)), s.2 + 1)) s

/-- Lower inner loop of `regular_to_packed`: for column `i`, rows
`j = i .. n-1`, `AP[index++] = A[j + i*n]`. -/
def pack_col_lower (A : Store) (n i : ℕ) (s : Store × ℕ) : Store × ℕ :=
  (List.range' i (n - i)).foldl
    (fun s j => (Function.update s.1 s.2 (A (j + i * n)), s.2 + 1)) s

/-- `regular_to_packed(upper, A, AP, n)`: a single running index `index`
starts at `0`; for `upper`, outer loop `i` over columns with inner rows
`j = 0 .. i`; for lower, inner rows `j = i .. n-1`. -/
def regular_to_packed (upper : Bool) (A : Store) (AP : Store) (n : ℕ) : Store :=
  (if upper then
    (List.range n).foldl (fun s i => pack_col_upper A n i s) (AP, 0)
  else
    (List.range n).foldl (fun s i => pack_col_lower A n i s) (AP, 0)).1

/-- The triangular numbers: `Tn c` is the packed offset at which column `c`
of an upper triangle starts (`c*(c+1)/2`). -/
def Tn : ℕ → ℕ
  | 0 => 0
  | n + 1 => Tn n + n + 1

/-- Packed offset at which column `c` of a lower triangle starts:
`lowStart n c = Σ_{t<c} (n - t)`. -/
def lowStart (n : ℕ) : ℕ → ℕ
  | 0 => 0
  | t + 1 => lowStart n t + (n - t)

/-- Standard packed-triangular addressing: the packed index of entry
(row `r`, column `c`) of the selected triangle. -/
def packIdx (upper : Bool) (n r c : ℕ) : ℕ :=
  if upper then Tn c + r else lowStart n c + (r - c)

/-- Modelled from the spec: the inverse unpack of the round-trip property,
"placing packed element back at its triangle coordinate": the dense entry
(row `r`, column `c`) recovered from a packed buffer under standard
packed-triangular addressing.  (No unpacking routine exists in the sources
under study; the claim itself defines this inverse.) -/
def packed_to_regular (upper : Bool) (AP : Store) (n r c : ℕ) : ℚ :=
  AP (packIdx upper n r c)

/-- Modelled from the spec claim "row-by-row for the lower triangle": the
packed index entry (row `r`, column `c`), `c ≤ r`, would have if the lower
triangle were linearized row by row (row `r` holds `r + 1` entries). -/
def packed_lower_rowmajor_index (r c : ℕ) : ℕ := Tn r + c

/-! ## Dense-to-banded conversion (`regular_to_banded`) -/

/-- `regular_to_banded(upper, A, lda, AB, ldab, n, k)`: per column `j`,
copy the band rows `i = min1 .. max1` of `A` to
`AB[j*ldab + (m + i)]` with `m = upper ? k - j : -j` (no generator use),
then fill `AB[j*ldab + i]` for `i = min2 .. ldab-1` with one generated
value each, and, for `upper`, also fill `AB[j*ldab + i]` for `i < k - j`.
Natural subtraction renders the C++ `std::max(0, j-k)` and the negative
`m` offsets.  The body of the column loop is `banded_col`: band copy over
`i = min1 .. max1` into row offset `m + i`, random fill of the bottom rows
`min2 .. ldab-1`, and (for upper) random fill of the top-left rows
`0 .. m-1`. -/
def banded_col (upper : Bool) (A : Store) (lda ldab n k : ℕ) (g : ℕ → ℚ) (j : ℕ)
    (s : Store × ℕ) : Store × ℕ :=
  let min1 := if upper then j - k else j
  let max1 := if upper then j else min (n - 1) (j + k)
  let s1 := (List.range' min1 (max1 + 1 - min1)).foldl
    (fun s i =>
      (Function.update s.1 (j * ldab + (if upper then k + i - j else i - j))
        (A (j * lda + i)), s.2))
    s
  let min2 := if upper then k + 1 else min (k + 1) (n - j)
  let s2 := (List.range' min2 (ldab - min2)).foldl
    (fun s i => (Function.update s.1 (j * ldab + i) (g s.2), s.2 + 1)) s1
  if upper then
    (List.range (k - j)).foldl
      (fun s i => (Function.update s.1 (j * ldab + i) (g s.2), s.2 + 1)) s2
  else s2

/-- `regular_to_banded`: the column loop over `j = 0 .. n-1`. -/
def regular_to_banded (upper : Bool) (A : Store) (lda : ℕ) (AB : Store) (ldab : ℕ)
    (n k : ℕ) (g : ℕ → ℚ) (c0 : ℕ) : Store × ℕ :=
  (List.range n).foldl (fun s j => banded_col upper A lda ldab n k g j s) (AB, c0)

/-! ## Generic characterization lemmas for the write loops -/

/-- Column-major flat indices `i + j * lda` with `i < lda` decode uniquely. -/
theorem colIdx_inj {lda i i' j j' : ℕ} (hi : i < lda) (hi' : i' < lda)
    (h : i + j * lda = i' + j' * lda) : i = i' ∧ j = j' := by
  have h1 : (i + j * lda) % lda = i := by
    rw [Nat.add_mul_mod_self_right, Nat.mod_eq_of_lt hi]
  have h2 : (i' + j' * lda) % lda = i' := by
    rw [Nat.add_mul_mod_self_right, Nat.mod_eq_of_lt hi']
  have hii : i = i' := by rw [← h1, ← h2, h]
  subst hii
  refine ⟨rfl, ?_⟩
  have hj : j * lda = j' * lda := by omega
  exact Nat.eq_of_mul_eq_mul_right (by omega) hj

/-- `colIdx_inj` with the leading dimension given explicitly. -/
theorem colIdx_inj2 (lda : ℕ) {i i' j j' : ℕ} (hi : i < lda) (hi' : i' < lda)
    (h : i + j * lda = i' + j' * lda) : i = i' ∧ j = j' :=
  colIdx_inj hi hi' h

/-- A loop writing one value per index through an injective offset map:
each offset ends up holding its value. -/
theorem foldl_update_eq {α : Type} [DecidableEq α] (off : ℕ → α) (val : ℕ → ℚ) :
    ∀ (N : ℕ) (x : α → ℚ),
      (∀ j1, j1 < N → ∀ j2, j2 < N → off j1 = off j2 → j1 = j2) →
      ∀ j, j < N →
        (List.range N).foldl (fun s t => Function.update s (off t) (val t)) x (off j)
          = val j := by
  intro N
  induction N with
  | zero => intro x _ j hj; omega
  | succ n ih =>
    intro x hinj j hj
    rw [List.range_succ n, List.foldl_append, List.foldl_cons, List.foldl_nil]
    rcases Nat.lt_or_ge j n with hlt | hge
    · rw [Function.update_noteq]
      · exact ih x (fun a ha b hb => hinj a (by omega) b (by omega)) j hlt
      · intro hc
        exact absurd (hinj j (by omega) n (by omega) hc) (by omega)
    · have hjn : j = n := by omega
      subst hjn
      exact Function.update_same _ _ _

/-- A loop writing one value at the running packed index per iteration
(`AP[index++] = f j` over `j = a .. a+m-1`): the final index, the values
landing at consecutive offsets, and the frame below the starting index. -/
theorem foldl_pack_char (f : ℕ → ℚ) :
    ∀ (m a : ℕ) (s : Store × ℕ),
      (((List.range' a m).foldl (fun s j => (Function.update s.1 s.2 (f j), s.2 + 1)) s).2
          = s.2 + m) ∧
      (∀ t, t < m →
        ((List.range' a m).foldl (fun s j => (Function.update s.1 s.2 (f j), s.2 + 1)) s).1
            (s.2 + t) = f (a + t)) ∧
      (∀ idx, idx < s.2 →
        ((List.range' a m).foldl (fun s j => (Function.update s.1 s.2 (f j), s.2 + 1)) s).1 idx
          = s.1 idx) := by
  intro m
  induction m with
  | zero =>
    intro a s
    refine ⟨rfl, ?_, ?_⟩
    · intro t ht; omega
    · intro idx _; rfl
  | succ mm ih =>
    intro a s
    rw [List.range'_succ a mm 1]
    simp only [List.foldl_cons]
    obtain ⟨ihc, ihv, ihf⟩ := ih (a + 1) (Function.update s.1 s.2 (f a), s.2 + 1)
    dsimp only at ihc ihv ihf
    refine ⟨by rw [ihc]; omega, ?_, ?_⟩
    · intro t ht
      cases t with
      | zero => simpa using ihf s.2 (by omega)
      | succ tt =>
        rw [show s.2 + (tt + 1) = s.2 + 1 + tt by omega, ihv tt (by omega)]
        congr 1
        omega
    · intro idx hidx
      rw [ihf idx (by omega)]
      exact Function.update_noteq (by omega) _ _

/-- A loop writing one generated value per slot `base + i` over
`i = a .. a+m-1`, advancing the generator cursor each time. -/
theorem foldl_gwrite_char (g : ℕ → ℚ) (base : ℕ) :
    ∀ (m a : ℕ) (s : Store × ℕ),
      (((List.range' a m).foldl
          (fun s i => (Function.update s.1 (base + i) (g s.2), s.2 + 1)) s).2 = s.2 + m) ∧
      (∀ i, a ≤ i → i < a + m →
        ((List.range' a m).foldl
            (fun s i => (Function.update s.1 (base + i) (g s.2), s.2 + 1)) s).1 (base + i)
          = g (s.2 + (i - a))) ∧
      (∀ idx, (∀ i, a ≤ i → i < a + m → idx ≠ base + i) →
        ((List.range' a m).foldl
            (fun s i => (Function.update s.1 (base + i) (g s.2), s.2 + 1)) s).1 idx
          = s.1 idx) := by
  intro m
  induction m with
  | zero =>
    intro a s
    refine ⟨rfl, ?_, ?_⟩
    · intro i h1 h2; omega
    · intro idx _; rfl
  | succ mm ih =>
    intro a s
    rw [List.range'_succ a mm 1]
    simp only [List.foldl_cons]
    obtain ⟨ihc, ihv, ihf⟩ := ih (a + 1) (Function.update s.1 (base + a) (g s.2), s.2 + 1)
    dsimp only at ihc ihv ihf
    refine ⟨by rw [ihc]; omega, ?_, ?_⟩
    · intro i h1 h2
      rcases Nat.eq_or_lt_of_le h1 with heq | hlt
      · rw [ihf (base + i) (by intro i' h1' h2' hc; omega), ← heq, Function.update_same]
        congr 1
        omega
      · rw [ihv i (by omega) (by omega)]
        congr 1
        omega
    · intro idx hidx
      rw [ihf idx (fun i' h1' h2' => hidx i' (by omega) (by omega))]
      exact Function.update_noteq (hidx a (by omega) (by omega)) _ _

/-- A loop writing `v i` at position `p i` over `i = a .. a+m-1` without
touching the generator cursor. -/
theorem foldl_store_write (p : ℕ → ℕ) (v : ℕ → ℚ) :
    ∀ (m a : ℕ) (s : Store × ℕ),
      (((List.range' a m).foldl (fun s i => (Function.update s.1 (p i) (v i), s.2)) s).2
          = s.2) ∧
      ((∀ i1, a ≤ i1 → i1 < a + m → ∀ i2, a ≤ i2 → i2 < a + m → p i1 = p i2 → i1 = i2) →
        ∀ i, a ≤ i → i < a + m →
          ((List.range' a m).foldl (fun s i => (Function.update s.1 (p i) (v i), s.2)) s).1
            (p i) = v i) ∧
      (∀ idx, (∀ i, a ≤ i → i < a + m → idx ≠ p i) →
        ((List.range' a m).foldl (fun s i => (Function.update s.1 (p i) (v i), s.2)) s).1 idx
          = s.1 idx) := by
  intro m
  induction m with
  | zero =>
    intro a s
    refine ⟨rfl, ?_, ?_⟩
    · intro _ i h1 h2; omega
    · intro idx _; rfl
  | succ mm ih =>
    intro a s
    rw [List.range'_succ a mm 1]
    simp only [List.foldl_cons]
    obtain ⟨ihc, ihv, ihf⟩ := ih (a + 1) (Function.update s.1 (p a) (v a), s.2)
    dsimp only at ihc ihv ihf
    refine ⟨ihc, ?_, ?_⟩
    · intro hinj i h1 h2
      rcases Nat.eq_or_lt_of_le h1 with heq | hlt
      · rw [ihf (p i) ?_, ← heq, Function.update_same]
        intro i' h1' h2' hc
        have := hinj i (by omega) (by omega) i' (by omega) (by omega) (heq ▸ hc)
        omega
      · exact ihv (fun i1 a1 b1 i2 a2 b2 e => hinj i1 (by omega) (by omega) i2 (by omega)
          (by omega) e) i (by omega) (by omega)
    · intro idx hidx
      rw [ihf idx (fun i' h1' h2' => hidx i' (by omega) (by omega))]
      exact Function.update_noteq (hidx a (by omega) (by omega)) _ _

/-! ## C9: the error-tolerance table -/

/-- C9 counterexample: the claim states the half-precision tolerance is
exactly the smallest positive normal IEEE-half value `2^-14 =
0.00006103515625 = 1/16384`; the table's constant is the truncated decimal
`0.000061035`, which differs from `1/16384`. -/
theorem c9_half_tolerance_counterexample :
    error_tolerance Precision.half ≠ 1 / 16384 := by
  norm_num [error_tolerance]

/-- C9 (amended): the error-tolerance table maps half precision to the
decimal constant `0.000061035` (a five-significant-digit truncation of
`2^-14`), and every other precision to exactly zero. -/
theorem c9_tolerance_table_amended :
    error_tolerance Precision.half = 61035 / 1000000000 ∧
    ∀ p : Precision, p ≠ Precision.half → error_tolerance p = 0 := by
  refine ⟨rfl, ?_⟩
  intro p hp
  cases p
  · exact absurd rfl hp
  all_goals rfl

/-- C9 witness: the amended theorem applied at single precision. -/
theorem c9_tolerance_table_amended_witness :
    Precision.single ≠ Precision.half ∧ error_tolerance Precision.single = 0 :=
  ⟨by decide, c9_tolerance_table_amended.2 Precision.single (by decide)⟩

/-! ## C10: negative-increment vector initialization -/

/-- C10: with a negative increment the base pointer is moved by
`-(N-1)*incx`, so element `j` is written at offset `(N-1-j)*|incx|`; for any
nonzero increment every write offset is within `[0, (N-1)*|incx|]`, and the
set of offsets written equals that of the positive increment `|incx|`.  The
three embedded initializers (`hipblas_init_vector`,
`hipblas_init_vector_alternating_sign`, the `hipblas_init_template` batch
body) all place element `j` at `init_vector_offset N incx j`. -/
theorem c10_negative_increment_offsets
    (g : ℕ → ℚ) (x : ℤ → ℚ) (N : ℕ) (incx : ℤ) (hinc : incx ≠ 0) (j : ℕ) (hj : j < N) :
    (incx < 0 → init_vector_offset N incx j = ((N : ℤ) - 1 - j) * (-incx)) ∧
    0 ≤ init_vector_offset N incx j ∧
    init_vector_offset N incx j ≤ ((N : ℤ) - 1) * |incx| ∧
    hipblas_init_vector g x N incx (init_vector_offset N incx j) = g j ∧
    hipblas_init_vector_alternating_sign g x N incx (init_vector_offset N incx j)
      = (if j % 2 = 1 then g j else -(g j)) ∧
    hipblas_init_template_batch g x N incx false (init_vector_offset N incx j) = g j ∧
    (∀ o : ℤ, (∃ t, t < N ∧ init_vector_offset N incx t = o)
        ↔ (∃ t, t < N ∧ init_vector_offset N (|incx|) t = o)) := by
  have hinj : ∀ j1, j1 < N → ∀ j2, j2 < N →
      init_vector_offset N incx j1 = init_vector_offset N incx j2 → j1 = j2 := by
    intro j1 _ j2 _ h
    unfold init_vector_offset at h
    have h2 := add_left_cancel h
    have h3 := mul_right_cancel₀ hinc h2
    exact_mod_cast h3
  have hneg : incx < 0 → init_vector_offset N incx j = ((N : ℤ) - 1 - j) * (-incx) := by
    intro h
    unfold init_vector_offset
    rw [if_pos h]
    ring
  have hb : 0 ≤ init_vector_offset N incx j ∧
      init_vector_offset N incx j ≤ ((N : ℤ) - 1) * |incx| := by
    rcases lt_or_gt_of_ne hinc with hlt | hgt
    · rw [hneg hlt, abs_of_neg hlt]
      constructor
      · exact mul_nonneg (by omega) (by omega)
      · exact mul_le_mul_of_nonneg_right (by omega) (by omega)
    · unfold init_vector_offset
      rw [if_neg (by omega), abs_of_pos hgt, zero_add]
      constructor
      · exact mul_nonneg (by omega) (by omega)
      · exact mul_le_mul_of_nonneg_right (by omega) (by omega)
  refine ⟨hneg, hb.1, hb.2, ?_, ?_, ?_, ?_⟩
  · exact foldl_update_eq (init_vector_offset N incx) g N x hinj j hj
  · exact foldl_update_eq (init_vector_offset N incx)
      (fun t => if t % 2 = 1 then g t else -(g t)) N x hinj j hj
  · have h := foldl_update_eq (init_vector_offset N incx)
      (fun t => if (false : Bool) = true then (if t % 2 = 1 then g t else -(g t)) else g t)
      N x hinj j hj
    simpa using h
  · intro o
    rcases lt_or_gt_of_ne hinc with hlt | hgt
    · constructor
      · rintro ⟨t, ht, rfl⟩
        refine ⟨N - 1 - t, by omega, ?_⟩
        have hc : ((N - 1 - t : ℕ) : ℤ) = (N : ℤ) - 1 - t := by omega
        unfold init_vector_offset
        rw [if_pos hlt, if_neg (by simp [abs_nonneg]), hc, abs_of_neg hlt]
        ring
      · rintro ⟨t, ht, rfl⟩
        refine ⟨N - 1 - t, by omega, ?_⟩
        have hc : ((N - 1 - t : ℕ) : ℤ) = (N : ℤ) - 1 - t := by omega
        unfold init_vector_offset
        rw [if_pos hlt, if_neg (by simp [abs_nonneg]), hc, abs_of_neg hlt]
        ring
    · rw [abs_of_pos hgt]

/-- C10 witness: with `N = 3`, `incx = -2`, element `0` of
`hipblas_init_vector` lands at offset `(3-1-0)*2 = 4`. -/
theorem c10_negative_increment_offsets_witness :
    ((-2 : ℤ) ≠ 0) ∧ (0 < 3) ∧
    hipblas_init_vector (fun t => (t : ℚ)) (fun _ => 0) 3 (-2)
      (init_vector_offset 3 (-2) 0) = 0 :=
  ⟨by decide, by decide,
    (c10_negative_increment_offsets (fun t => (t : ℚ)) (fun _ => 0) 3 (-2)
      (by decide) 0 (by decide)).2.2.2.1⟩

/-! ## C1: invalid shape parameters take the quick-return path -/

/-- C1: whenever a driver's `invalid_size` predicate holds (negative `N`,
negative `M`, a leading dimension below the required row extent, `ldc`
below the output row extent, negative `batch_count`, or a zero increment),
the driver takes the quick-return path: one single invocation with every
operand and scalar pointer null, asserting `HIPBLAS_STATUS_INVALID_VALUE`
(never success), and returns before allocating any buffer. -/
theorem c1_invalid_shape_quick_return
    (N lda incx incy : ℤ) (h1 : hemv_invalid_size N lda incx incy = true)
    (tA : Bool) (N2 K lda2 ldc2 bc : ℤ)
    (h2 : syrk_sb_invalid_size tA N2 K lda2 ldc2 bc = true)
    (tA3 tB3 : Bool) (M3 N3 lda3 ldb3 ldc3 : ℤ)
    (h3 : geam_invalid_size tA3 tB3 M3 N3 lda3 ldb3 ldc3 = true) :
    testing_hemv_driver N lda incx incy
        = .quickReturn ⟨[none, none, none, none, none], .invalidValue⟩ ∧
    testing_syrk_strided_batched_driver tA N2 K lda2 ldc2 bc
        = .quickReturn ⟨[none, none, none, none], .invalidValue⟩ ∧
    testing_geam_driver tA3 tB3 M3 N3 lda3 ldb3 ldc3
        = .quickReturn ⟨[none, none, none, none, none], .invalidValue⟩ := by
  unfold testing_hemv_driver testing_syrk_strided_batched_driver testing_geam_driver
  rw [h1, h2, h3]
  simp

/-- C1 witness: `N = -1` for hemv, syrk-strided-batched and geam. -/
theorem c1_invalid_shape_quick_return_witness :
    hemv_invalid_size (-1) 1 1 1 = true ∧
    syrk_sb_invalid_size true (-1) 0 1 1 1 = true ∧
    geam_invalid_size true true (-1) 1 1 1 1 = true ∧
    testing_hemv_driver (-1) 1 1 1
        = .quickReturn ⟨[none, none, none, none, none], .invalidValue⟩ :=
  ⟨by decide, by decide, by decide,
    (c1_invalid_shape_quick_return (-1) 1 1 1 (by decide) true (-1) 0 1 1 1 (by decide)
      true true (-1) 1 1 1 1 (by decide)).1⟩

/-! ## C4: zero shape parameters succeed with all pointers null -/

/-- C4: for otherwise well-formed arguments with a zero shape parameter
(`N = 0` for hemv, `N = 0` or `batch_count = 0` for syrk-strided-batched,
`M = 0` or `N = 0` for geam) each driver performs its single invocation
with every operand and scalar pointer null and asserts success, and each
bad-argument suite contains the corresponding all-null zero-shape
invocation with expected status success (no buffer exists to be touched,
so output buffers are trivially left untouched). -/
theorem c4_zero_shape_success
    (N lda incx incy : ℤ) (hN : N = 0) (h1 : hemv_invalid_size N lda incx incy = false)
    (tA : Bool) (N2 K lda2 ldc2 bc : ℤ) (hz2 : N2 = 0 ∨ bc = 0)
    (h2 : syrk_sb_invalid_size tA N2 K lda2 ldc2 bc = false)
    (tA3 tB3 : Bool) (M3 N3 lda3 ldb3 ldc3 : ℤ) (hz3 : M3 = 0 ∨ N3 = 0)
    (h3 : geam_invalid_size tA3 tB3 M3 N3 lda3 ldb3 ldc3 = false) :
    testing_hemv_driver N lda incx incy
        = .quickReturn ⟨[none, none, none, none, none], .success⟩ ∧
    testing_syrk_strided_batched_driver tA N2 K lda2 ldc2 bc
        = .quickReturn ⟨[none, none, none, none], .success⟩ ∧
    testing_geam_driver tA3 tB3 M3 N3 lda3 ldb3 ldc3
        = .quickReturn ⟨[none, none, none, none, none], .success⟩ ∧
    (∀ ba hm : Bool, hemv_N_zero_call ∈ testing_hemv_bad_arg ba hm) ∧
    hemv_N_zero_call.N = 0 ∧ hemv_N_zero_call.alpha = none ∧ hemv_N_zero_call.A = none ∧
    hemv_N_zero_call.x = none ∧ hemv_N_zero_call.beta = none ∧ hemv_N_zero_call.y = none ∧
    hemv_N_zero_call.expected = .success ∧
    (∀ ba hm api64 : Bool, ∀ ci32 : ℤ,
      syrk_N_zero_call ∈ testing_syrk_sb_bad_arg ba hm api64 ci32 ∧
      syrk_batch_count_zero_call ∈ testing_syrk_sb_bad_arg ba hm api64 ci32) ∧
    syrk_N_zero_call.N = 0 ∧ syrk_N_zero_call.alpha = none ∧ syrk_N_zero_call.A = none ∧
    syrk_N_zero_call.beta = none ∧ syrk_N_zero_call.C = none ∧
    syrk_N_zero_call.expected = .success ∧
    syrk_batch_count_zero_call.batch_count = 0 ∧
    syrk_batch_count_zero_call.expected = .success ∧
    (∀ ba hm api64 : Bool, ∀ ci32 : ℤ,
      geam_M_zero_call ∈ testing_geam_bad_arg ba hm api64 ci32 ∧
      geam_N_zero_call ∈ testing_geam_bad_arg ba hm api64 ci32) ∧
    geam_M_zero_call.M = 0 ∧ geam_M_zero_call.alpha = none ∧ geam_M_zero_call.A = none ∧
    geam_M_zero_call.beta = none ∧ geam_M_zero_call.B = none ∧ geam_M_zero_call.C = none ∧
    geam_M_zero_call.expected = .success ∧
    geam_N_zero_call.N = 0 ∧ geam_N_zero_call.expected = .success := by
  subst hN
  refine ⟨?_, ?_, ?_, ?_, rfl, rfl, rfl, rfl, rfl, rfl, rfl, ?_, rfl, rfl, rfl, rfl, rfl,
    rfl, rfl, rfl, ?_, rfl, rfl, rfl, rfl, rfl, rfl, rfl, rfl, rfl⟩
  · simp [testing_hemv_driver, h1]
  · rcases hz2 with h | h <;> subst h <;> simp [testing_syrk_strided_batched_driver, h2]
  · rcases hz3 with h | h <;> subst h <;> simp [testing_geam_driver, h3]
  · intro ba hm
    cases ba <;> cases hm <;> simp [testing_hemv_bad_arg]
  · intro ba hm api64 ci32
    cases ba <;> cases hm <;> cases api64 <;>
      simp [testing_syrk_sb_bad_arg]
  · intro ba hm api64 ci32
    cases ba <;> cases hm <;> cases api64 <;>
      simp [testing_geam_bad_arg]

/-- C4 witness: `N = 0, lda = 1, incx = incy = 1` for hemv (well-formed,
zero shape); analogous inputs for the other two drivers. -/
theorem c4_zero_shape_success_witness :
    hemv_invalid_size 0 1 1 1 = false ∧
    testing_hemv_driver 0 1 1 1
        = .quickReturn ⟨[none, none, none, none, none], .success⟩ :=
  ⟨by decide,
    (c4_zero_shape_success 0 1 1 1 rfl (by decide) true 0 0 1 1 1 (Or.inl rfl) (by decide)
      true true 0 1 1 1 1 (Or.inl rfl) (by decide)).1⟩

/-! ## C5: degenerate-but-legal scaling coefficients succeed -/

/-- C5: each bad-argument suite contains its degenerate-but-legal
invocations — `alpha = 0` (hemv: `A`, `x` null), `alpha = 0 && beta = 1`
(hemv: all operand pointers null; syrk: `A`, `C` null), `K = 0 && beta = 1`
(syrk: `A`, `C` null), `alpha = 0` / `beta = 0` (geam: `A` resp. `B`
null) — and every one of them asserts success. -/
theorem c5_alpha_zero_success (hm api64 : Bool) (ci32 : ℤ) :
    (hemv_alpha_zero_call ∈ testing_hemv_bad_arg true hm ∧
      hemv_alpha_zero_call.alpha = some 0 ∧ hemv_alpha_zero_call.A = none ∧
      hemv_alpha_zero_call.x = none ∧ hemv_alpha_zero_call.expected = .success) ∧
    (hemv_alpha_zero_beta_one_call ∈ testing_hemv_bad_arg true hm ∧
      hemv_alpha_zero_beta_one_call.alpha = some 0 ∧
      hemv_alpha_zero_beta_one_call.beta = some 1 ∧
      hemv_alpha_zero_beta_one_call.A = none ∧ hemv_alpha_zero_beta_one_call.x = none ∧
      hemv_alpha_zero_beta_one_call.y = none ∧
      hemv_alpha_zero_beta_one_call.expected = .success) ∧
    (syrk_k_zero_beta_one_call ∈ testing_syrk_sb_bad_arg true hm api64 ci32 ∧
      syrk_k_zero_beta_one_call.K = 0 ∧ syrk_k_zero_beta_one_call.beta = some 1 ∧
      syrk_k_zero_beta_one_call.A = none ∧ syrk_k_zero_beta_one_call.C = none ∧
      syrk_k_zero_beta_one_call.expected = .success) ∧
    (syrk_alpha_zero_beta_one_call ∈ testing_syrk_sb_bad_arg true hm api64 ci32 ∧
      syrk_alpha_zero_beta_one_call.alpha = some 0 ∧
      syrk_alpha_zero_beta_one_call.beta = some 1 ∧
      syrk_alpha_zero_beta_one_call.A = none ∧ syrk_alpha_zero_beta_one_call.C = none ∧
      syrk_alpha_zero_beta_one_call.expected = .success) ∧
    (geam_alpha_zero_call ∈ testing_geam_bad_arg true hm api64 ci32 ∧
      geam_alpha_zero_call.alpha = some 0 ∧ geam_alpha_zero_call.A = none ∧
      geam_alpha_zero_call.expected = .success) ∧
    (geam_beta_zero_call ∈ testing_geam_bad_arg true hm api64 ci32 ∧
      geam_beta_zero_call.beta = some 0 ∧ geam_beta_zero_call.B = none ∧
      geam_beta_zero_call.expected = .success) := by
  refine ⟨⟨?_, rfl, rfl, rfl, rfl⟩, ⟨?_, rfl, rfl, rfl, rfl, rfl, rfl⟩,
    ⟨?_, rfl, rfl, rfl, rfl, rfl⟩, ⟨?_, rfl, rfl, rfl, rfl, rfl⟩,
    ⟨?_, rfl, rfl, rfl⟩, ⟨?_, rfl, rfl, rfl⟩⟩ <;>
    cases hm <;> cases api64 <;>
      simp [testing_hemv_bad_arg, testing_syrk_sb_bad_arg, testing_geam_bad_arg]

/-! ## C2 support lemmas -/

/-- One column of phase 1 of the diagonally-dominant fill: within column
`j`, off-triangle entries are written to `0`, and positions outside the
column are untouched. -/
theorem fill_tri_col_char (upper : Bool) (g : ℕ → ℚ) (lda j : ℕ) :
    ∀ (M : ℕ) (s : Store × ℕ),
      (∀ i, i < M → ¬(if upper then i ≤ j else j ≤ i) →
        ((List.range M).foldl
          (fun s i =>
            if (if upper then i ≤ j else j ≤ i) then
              (Function.update s.1 (i + j * lda) (g s.2), s.2 + 1)
            else
              (Function.update s.1 (i + j * lda) 0, s.2)) s).1 (i + j * lda) = 0) ∧
      (∀ idx, (∀ i, i < M → idx ≠ i + j * lda) →
        ((List.range M).foldl
          (fun s i =>
            if (if upper then i ≤ j else j ≤ i) then
              (Function.update s.1 (i + j * lda) (g s.2), s.2 + 1)
            else
              (Function.update s.1 (i + j * lda) 0, s.2)) s).1 idx = s.1 idx) := by
  intro M
  induction M with
  | zero =>
    intro s
    refine ⟨?_, ?_⟩
    · intro i hi; omega
    · intro idx _; rfl
  | succ m ih =>
    intro s
    simp only [List.range_succ, List.foldl_append, List.foldl_cons, List.foldl_nil]
    obtain ⟨ihz, ihf⟩ := ih s
    constructor
    · intro i hi htri
      by_cases hc : (if upper then m ≤ j else j ≤ m)
      · rw [if_pos hc]
        dsimp only
        rcases Nat.lt_or_ge i m with hlt | hge
        · rw [Function.update_noteq (by omega)]
          exact ihz i hlt htri
        · have hieq : i = m := by omega
          subst hieq
          exact absurd hc htri
      · rw [if_neg hc]
        dsimp only
        rcases Nat.lt_or_ge i m with hlt | hge
        · rw [Function.update_noteq (by omega)]
          exact ihz i hlt htri
        · have hieq : i = m := by omega
          subst hieq
          exact Function.update_same _ _ _
    · intro idx hidx
      by_cases hc : (if upper then m ≤ j else j ≤ m)
      · rw [if_pos hc]
        dsimp only
        rw [Function.update_noteq (hidx m (by omega))]
        exact ihf idx (fun i h => hidx i (by omega))
      · rw [if_neg hc]
        dsimp only
        rw [Function.update_noteq (hidx m (by omega))]
        exact ihf idx (fun i h => hidx i (by omega))

/-- Unfolding one outer (column) iteration of phase 1. -/
theorem fill_tri_succ (upper : Bool) (g : ℕ → ℚ) (M lda n : ℕ) (s : Store × ℕ) :
    fill_triangular_random upper g M (n + 1) lda s =
      (List.range M).foldl
        (fun s i =>
          if (if upper then i ≤ n else n ≤ i) then
            (Function.update s.1 (i + n * lda) (g s.2), s.2 + 1)
          else
            (Function.update s.1 (i + n * lda) 0, s.2))
        (fill_triangular_random upper g M n lda s) := by
  unfold fill_triangular_random
  rw [List.range_succ, List.foldl_append, List.foldl_cons, List.foldl_nil]

/-- Phase 1 of the diagonally-dominant fill leaves every off-triangle
entry of the `M × N` matrix equal to zero. -/
theorem fill_tri_offtri_zero (upper : Bool) (g : ℕ → ℚ) (M lda : ℕ) (hM : M ≤ lda) :
    ∀ (N : ℕ) (s : Store × ℕ) (i j : ℕ), i < M → j < N →
      ¬(if upper then i ≤ j else j ≤ i) →
      (fill_triangular_random upper g M N lda s).1 (i + j * lda) = 0 := by
  intro N
  induction N with
  | zero => intro s i j _ hj; omega
  | succ n ih =>
    intro s i j hi hj htri
    rw [fill_tri_succ]
    rcases Nat.lt_or_ge j n with hlt | hge
    · rw [(fill_tri_col_char upper g lda n M
        (fill_triangular_random upper g M n lda s)).2 (i + j * lda) ?_]
      · exact ih s i j hi hlt htri
      · intro i' hi' heq
        have := colIdx_inj2 lda (by omega) (by omega) heq
        omega
    · have hjeq : j = n := by omega
      subst hjeq
      exact (fill_tri_col_char upper g lda j M
        (fill_triangular_random upper g M j lda s)).1 i hi htri

/-- Characterization of phase 2 (upper): off-diagonal entries are
untouched, and diagonal `i` receives the dominance formula evaluated over
the phase-1 matrix. -/
theorem dd_diag_upper_char (N lda : ℕ) (hN : N ≤ lda) (A : Store) :
    ∀ t, t ≤ N →
      (∀ idx, (∀ u, u < t → idx ≠ u + u * lda) →
        ((List.range t).foldl
          (fun s i =>
            Function.update s (i + i * lda)
              (if dd_row_sum_upper s N lda i + dd_col_sum_upper s lda i = 0 then 1
               else (dd_row_sum_upper s N lda i + dd_col_sum_upper s lda i) * (101 / 100)))
          A) idx = A idx) ∧
      (∀ i, i < t →
        ((List.range t).foldl
          (fun s i =>
            Function.update s (i + i * lda)
              (if dd_row_sum_upper s N lda i + dd_col_sum_upper s lda i = 0 then 1
               else (dd_row_sum_upper s N lda i + dd_col_sum_upper s lda i) * (101 / 100)))
          A) (i + i * lda)
          = (if dd_row_sum_upper A N lda i + dd_col_sum_upper A lda i = 0 then 1
             else (dd_row_sum_upper A N lda i + dd_col_sum_upper A lda i) * (101 / 100))) := by
  intro t
  induction t with
  | zero =>
    intro _
    refine ⟨?_, ?_⟩
    · intro idx _; rfl
    · intro i hi; omega
  | succ m ih =>
    intro hm
    obtain ⟨ihf, ihv⟩ := ih (by omega)
    simp only [List.range_succ, List.foldl_append, List.foldl_cons, List.foldl_nil]
    have hrow : dd_row_sum_upper
        ((List.range m).foldl
          (fun s i =>
            Function.update s (i + i * lda)
              (if dd_row_sum_upper s N lda i + dd_col_sum_upper s lda i = 0 then 1
               else (dd_row_sum_upper s N lda i + dd_col_sum_upper s lda i) * (101 / 100)))
          A) N lda m = dd_row_sum_upper A N lda m := by
      unfold dd_row_sum_upper
      congr 1
      apply List.map_congr_left
      intro j hj
      have hj' := List.mem_range'_1.mp hj
      congr 1
      apply ihf
      intro u hu heq
      have := colIdx_inj2 lda (by omega) (by omega) heq
      omega
    have hcol : dd_col_sum_upper
        ((List.range m).foldl
          (fun s i =>
            Function.update s (i + i * lda)
              (if dd_row_sum_upper s N lda i + dd_col_sum_upper s lda i = 0 then 1
               else (dd_row_sum_upper s N lda i + dd_col_sum_upper s lda i) * (101 / 100)))
          A) lda m = dd_col_sum_upper A lda m := by
      unfold dd_col_sum_upper
      congr 1
      apply List.map_congr_left
      intro j hj
      have hj' := List.mem_range.mp hj
      congr 1
      apply ihf
      intro u hu heq
      have := colIdx_inj2 lda (by omega) (by omega) heq
      omega
    refine ⟨?_, ?_⟩
    · intro idx hidx
      rw [Function.update_noteq (hidx m (by omega))]
      exact ihf idx (fun u hu => hidx u (by omega))
    · intro i hi
      rcases Nat.lt_or_ge i m with hlt | hge
      · rw [Function.update_noteq ?_]
        · exact ihv i hlt
        · intro heq
          have := colIdx_inj2 lda (by omega) (by omega) heq
          omega
      · have hieq : i = m := by omega
        subst hieq
        rw [Function.update_same, hrow, hcol]

/-- Characterization of phase 2 (lower): off-diagonal entries are
untouched, and diagonal `j` receives the dominance formula evaluated over
the phase-1 matrix. -/
theorem dd_diag_lower_char (N lda : ℕ) (hN : N ≤ lda) (A : Store) :
    ∀ t, t ≤ N →
      (∀ idx, (∀ u, u < t → idx ≠ u + u * lda) →
        ((List.range t).foldl
          (fun s j =>
            Function.update s (j + j * lda)
              (if dd_row_sum_lower s lda j + dd_col_sum_lower s N lda j = 0 then 1
               else (dd_row_sum_lower s lda j + dd_col_sum_lower s N lda j) * (101 / 100)))
          A) idx = A idx) ∧
      (∀ j, j < t →
        ((List.range t).foldl
          (fun s j =>
            Function.update s (j + j * lda)
              (if dd_row_sum_lower s lda j + dd_col_sum_lower s N lda j = 0 then 1
               else (dd_row_sum_lower s lda j + dd_col_sum_lower s N lda j) * (101 / 100)))
          A) (j + j * lda)
          = (if dd_row_sum_lower A lda j + dd_col_sum_lower A N lda j = 0 then 1
             else (dd_row_sum_lower A lda j + dd_col_sum_lower A N lda j) * (101 / 100))) := by
  intro t
  induction t with
  | zero =>
    intro _
    refine ⟨?_, ?_⟩
    · intro idx _; rfl
    · intro j hj; omega
  | succ m ih =>
    intro hm
    obtain ⟨ihf, ihv⟩ := ih (by omega)
    simp only [List.range_succ, List.foldl_append, List.foldl_cons, List.foldl_nil]
    have hrow : dd_row_sum_lower
        ((List.range m).foldl
          (fun s j =>
            Function.update s (j + j * lda)
              (if dd_row_sum_lower s lda j + dd_col_sum_lower s N lda j = 0 then 1
               else (dd_row_sum_lower s lda j + dd_col_sum_lower s N lda j) * (101 / 100)))
          A) lda m = dd_row_sum_lower A lda m := by
      unfold dd_row_sum_lower
      congr 1
      apply List.map_congr_left
      intro i hi
      have hi' := List.mem_range.mp hi
      congr 1
      apply ihf
      intro u hu heq
      have := colIdx_inj2 lda (by omega) (by omega) heq
      omega
    have hcol : dd_col_sum_lower
        ((List.range m).foldl
          (fun s j =>
            Function.update s (j + j * lda)
              (if dd_row_sum_lower s lda j + dd_col_sum_lower s N lda j = 0 then 1
               else (dd_row_sum_lower s lda j + dd_col_sum_lower s N lda j) * (101 / 100)))
          A) N lda m = dd_col_sum_lower A N lda m := by
      unfold dd_col_sum_lower
      congr 1
      apply List.map_congr_left
      intro i hi
      have hi' := List.mem_range'_1.mp hi
      congr 1
      apply ihf
      intro u hu heq
      have := colIdx_inj2 lda (by omega) (by omega) heq
      omega
    refine ⟨?_, ?_⟩
    · intro idx hidx
      rw [Function.update_noteq (hidx m (by omega))]
      exact ihf idx (fun u hu => hidx u (by omega))
    · intro j hj
      rcases Nat.lt_or_ge j m with hlt | hge
      · rw [Function.update_noteq ?_]
        · exact ihv j hlt
        · intro heq
          have := colIdx_inj2 lda (by omega) (by omega) heq
          omega
      · have hjeq : j = m := by omega
        subst hjeq
        rw [Function.update_same, hrow, hcol]

/-- A sum of absolute values over any index list is nonnegative. -/
theorem sum_abs_nonneg (l : List ℕ) (f : ℕ → ℚ) :
    0 ≤ (l.map (fun t => |f t|)).sum := by
  apply List.sum_nonneg
  intro x hx
  obtain ⟨t, _, rfl⟩ := List.mem_map.mp hx
  exact abs_nonneg _

/-- Splitting the full off-diagonal sum when the entries above index `i`
vanish: only the prefix below `i` remains. -/
theorem offdiag_split_low (f : ℕ → ℚ) (N i : ℕ) (hi : i < N)
    (hzero : ∀ t, i < t → t < N → f t = 0) :
    ((List.range N).map (fun t => if t = i then 0 else |f t|)).sum
      = ((List.range i).map (fun t => |f t|)).sum := by
  obtain ⟨m, rfl⟩ : ∃ m, N = i + (m + 1) := ⟨N - i - 1, by omega⟩
  rw [List.range_add, List.map_append, List.sum_append]
  have h2 : (((List.range (m + 1)).map (fun x => i + x)).map
      (fun t => if t = i then 0 else |f t|)).sum = 0 := by
    apply List.sum_eq_zero
    intro x hx
    obtain ⟨y, hy, rfl⟩ := List.mem_map.mp hx
    obtain ⟨t, ht, rfl⟩ := List.mem_map.mp hy
    have ht' := List.mem_range.mp ht
    rcases Nat.eq_zero_or_pos t with h0 | hpos
    · subst h0; simp
    · rw [if_neg (by omega), hzero (i + t) (by omega) (by omega), abs_zero]
  rw [h2, add_zero]
  congr 1
  apply List.map_congr_left
  intro t ht
  have ht' := List.mem_range.mp ht
  rw [if_neg (by omega)]

/-- Splitting the full off-diagonal sum when the entries below index `i`
vanish: only the suffix above `i` remains. -/
theorem offdiag_split_high (f : ℕ → ℚ) (N i : ℕ) (hi : i < N)
    (hzero : ∀ t, t < i → f t = 0) :
    ((List.range N).map (fun t => if t = i then 0 else |f t|)).sum
      = ((List.range' (i + 1) (N - (i + 1))).map (fun t => |f t|)).sum := by
  obtain ⟨m, rfl⟩ : ∃ m, N = (i + 1) + m := ⟨N - (i + 1), by omega⟩
  rw [List.range_add, List.map_append, List.sum_append]
  have h1 : ((List.range (i + 1)).map (fun t => if t = i then 0 else |f t|)).sum = 0 := by
    apply List.sum_eq_zero
    intro x hx
    obtain ⟨t, ht, rfl⟩ := List.mem_map.mp hx
    have ht' := List.mem_range.mp ht
    rcases Nat.lt_or_ge t i with hlt | hge
    · rw [if_neg (by omega), hzero t hlt, abs_zero]
    · rw [if_pos (by omega)]
  rw [h1, zero_add]
  have hm : i + 1 + m - (i + 1) = m := by omega
  rw [hm, List.range'_eq_map_range, List.map_map, List.map_map]
  congr 1
  apply List.map_congr_left
  intro t ht
  have ht' := List.mem_range.mp ht
  simp only [Function.comp_apply]
  rw [if_neg (by omega)]

/-- For a matrix vanishing below the diagonal of row `i`, the full
off-diagonal row sum reduces to the stored (upper) part. -/
theorem row_offdiag_eq_upper (B : Store) (N lda i : ℕ) (hi : i < N)
    (hz : ∀ j, j < i → B (i + j * lda) = 0) :
    row_offdiag_abs_sum B N lda i = dd_row_sum_upper B N lda i := by
  unfold row_offdiag_abs_sum dd_row_sum_upper
  exact offdiag_split_high (fun j => B (i + j * lda)) N i hi hz

/-- For a matrix vanishing below the diagonal of column `i`, the full
off-diagonal column sum reduces to the stored (upper) part. -/
theorem col_offdiag_eq_upper (B : Store) (N lda i : ℕ) (hi : i < N)
    (hz : ∀ r, i < r → r < N → B (r + i * lda) = 0) :
    col_offdiag_abs_sum B N lda i = dd_col_sum_upper B lda i := by
  unfold col_offdiag_abs_sum dd_col_sum_upper
  exact offdiag_split_low (fun r => B (r + i * lda)) N i hi hz

/-- For a matrix vanishing right of the diagonal of row `i`, the full
off-diagonal row sum reduces to the stored (lower) part. -/
theorem row_offdiag_eq_lower (B : Store) (N lda i : ℕ) (hi : i < N)
    (hz : ∀ c, i < c → c < N → B (i + c * lda) = 0) :
    row_offdiag_abs_sum B N lda i = dd_row_sum_lower B lda i := by
  unfold row_offdiag_abs_sum dd_row_sum_lower
  exact offdiag_split_low (fun c => B (i + c * lda)) N i hi hz

/-- For a matrix vanishing above the diagonal of column `i`, the full
off-diagonal column sum reduces to the stored (lower) part. -/
theorem col_offdiag_eq_lower (B : Store) (N lda i : ℕ) (hi : i < N)
    (hz : ∀ r, r < i → B (r + i * lda) = 0) :
    col_offdiag_abs_sum B N lda i = dd_col_sum_lower B N lda i := by
  unfold col_offdiag_abs_sum dd_col_sum_lower
  exact offdiag_split_high (fun r => B (r + i * lda)) N i hi hz

/-- The arithmetic core of diagonal dominance: the written diagonal value
dominates each of the two nonnegative partial sums. -/
theorem dd_dominance_arith (rs cs : ℚ) (h1 : 0 ≤ rs) (h2 : 0 ≤ cs) :
    rs ≤ |if rs + cs = 0 then 1 else (rs + cs) * (101 / 100)| ∧
    cs ≤ |if rs + cs = 0 then 1 else (rs + cs) * (101 / 100)| := by
  by_cases h : rs + cs = 0
  · rw [if_pos h, abs_one]
    constructor <;> linarith
  · rw [if_neg h]
    have hpos : 0 < rs + cs := lt_of_le_of_ne (by linarith) (Ne.symm h)
    rw [abs_of_pos (mul_pos hpos (by norm_num))]
    have e : (rs + cs) * (101 / 100) = rs + cs + (rs + cs) * (1 / 100) := by ring
    have nn : 0 ≤ (rs + cs) * (1 / 100) := by positivity
    constructor <;> linarith

/-- Single-batch core of C2: after the diagonally-dominant fill of an
`N × N` matrix with `N ≤ lda`, each diagonal entry equals `1.01` times the
sum of the absolute values of the off-diagonal entries of its row and
column (or `1` when that sum is zero), and dominates both the row and the
column off-diagonal absolute sums. -/
theorem fill_dd_core (upper : Bool) (g : ℕ → ℚ) (N lda : ℕ) (hlda : N ≤ lda)
    (A0 : Store) (c0 : ℕ) (i : ℕ) (hi : i < N) :
    (fill_dd_matrix upper g N N lda A0 c0).1 (i + i * lda)
        = (if row_offdiag_abs_sum (fill_dd_matrix upper g N N lda A0 c0).1 N lda i
              + col_offdiag_abs_sum (fill_dd_matrix upper g N N lda A0 c0).1 N lda i = 0
           then 1
           else (row_offdiag_abs_sum (fill_dd_matrix upper g N N lda A0 c0).1 N lda i
              + col_offdiag_abs_sum (fill_dd_matrix upper g N N lda A0 c0).1 N lda i)
             * (101 / 100)) ∧
    row_offdiag_abs_sum (fill_dd_matrix upper g N N lda A0 c0).1 N lda i
        ≤ |(fill_dd_matrix upper g N N lda A0 c0).1 (i + i * lda)| ∧
    col_offdiag_abs_sum (fill_dd_matrix upper g N N lda A0 c0).1 N lda i
        ≤ |(fill_dd_matrix upper g N N lda A0 c0).1 (i + i * lda)| := by
  cases upper with
  | true =>
    have hBdef : (fill_dd_matrix true g N N lda A0 c0).1
        = dd_diag_upper N lda (fill_triangular_random true g N N lda (A0, c0)).1 := rfl
    rw [hBdef]
    set A1 := (fill_triangular_random true g N N lda (A0, c0)).1 with hA1
    set B := dd_diag_upper N lda A1 with hB
    have hchar := dd_diag_upper_char N lda hlda A1 N le_rfl
    have hBoff : ∀ r c, r < N → c < N → r ≠ c → B (r + c * lda) = A1 (r + c * lda) := by
      intro r c hr hc hrc
      apply hchar.1
      intro u hu heq
      have := colIdx_inj2 lda (by omega) (by omega) heq
      omega
    have hz1 : ∀ j, j < i → B (i + j * lda) = 0 := by
      intro j hj
      rw [hBoff i j hi (by omega) (by omega), hA1]
      exact fill_tri_offtri_zero true g N lda hlda N (A0, c0) i j hi (by omega)
        (by simp; omega)
    have hz2 : ∀ r, i < r → r < N → B (r + i * lda) = 0 := by
      intro r h1 h2
      rw [hBoff r i h2 hi (by omega), hA1]
      exact fill_tri_offtri_zero true g N lda hlda N (A0, c0) r i h2 hi (by simp; omega)
    have hrow1 : row_offdiag_abs_sum B N lda i = dd_row_sum_upper B N lda i :=
      row_offdiag_eq_upper B N lda i hi hz1
    have hrow2 : dd_row_sum_upper B N lda i = dd_row_sum_upper A1 N lda i := by
      unfold dd_row_sum_upper
      congr 1
      apply List.map_congr_left
      intro j hj
      have hj' := List.mem_range'_1.mp hj
      rw [hBoff i j hi (by omega) (by omega)]
    have hcol1 : col_offdiag_abs_sum B N lda i = dd_col_sum_upper B lda i :=
      col_offdiag_eq_upper B N lda i hi hz2
    have hcol2 : dd_col_sum_upper B lda i = dd_col_sum_upper A1 lda i := by
      unfold dd_col_sum_upper
      congr 1
      apply List.map_congr_left
      intro j hj
      have hj' := List.mem_range.mp hj
      rw [hBoff j i (by omega) hi (by omega)]
    have hdiag : B (i + i * lda)
        = (if dd_row_sum_upper A1 N lda i + dd_col_sum_upper A1 lda i = 0 then 1
           else (dd_row_sum_upper A1 N lda i + dd_col_sum_upper A1 lda i) * (101 / 100)) :=
      hchar.2 i hi
    have hrs0 : 0 ≤ dd_row_sum_upper A1 N lda i := sum_abs_nonneg _ _
    have hcs0 : 0 ≤ dd_col_sum_upper A1 lda i := sum_abs_nonneg _ _
    have harith := dd_dominance_arith (dd_row_sum_upper A1 N lda i)
      (dd_col_sum_upper A1 lda i) hrs0 hcs0
    refine ⟨?_, ?_, ?_⟩
    · rw [hrow1, hrow2, hcol1, hcol2, hdiag]
    · rw [hrow1, hrow2, hdiag]
      exact harith.1
    · rw [hcol1, hcol2, hdiag]
      exact harith.2
  | false =>
    have hBdef : (fill_dd_matrix false g N N lda A0 c0).1
        = dd_diag_lower N lda (fill_triangular_random false g N N lda (A0, c0)).1 := rfl
    rw [hBdef]
    set A1 := (fill_triangular_random false g N N lda (A0, c0)).1 with hA1
    set B := dd_diag_lower N lda A1 with hB
    have hchar := dd_diag_lower_char N lda hlda A1 N le_rfl
    have hBoff : ∀ r c, r < N → c < N → r ≠ c → B (r + c * lda) = A1 (r + c * lda) := by
      intro r c hr hc hrc
      apply hchar.1
      intro u hu heq
      have := colIdx_inj2 lda (by omega) (by omega) heq
      omega
    have hz1 : ∀ c, i < c → c < N → B (i + c * lda) = 0 := by
      intro c h1 h2
      rw [hBoff i c hi (by omega) (by omega), hA1]
      exact fill_tri_offtri_zero false g N lda hlda N (A0, c0) i c hi h2 (by simp; omega)
    have hz2 : ∀ r, r < i → B (r + i * lda) = 0 := by
      intro r hr
      rw [hBoff r i (by omega) hi (by omega), hA1]
      exact fill_tri_offtri_zero false g N lda hlda N (A0, c0) r i (by omega) hi
        (by simp; omega)
    have hrow1 : row_offdiag_abs_sum B N lda i = dd_row_sum_lower B lda i :=
      row_offdiag_eq_lower B N lda i hi hz1
    have hrow2 : dd_row_sum_lower B lda i = dd_row_sum_lower A1 lda i := by
      unfold dd_row_sum_lower
      congr 1
      apply List.map_congr_left
      intro j hj
      have hj' := List.mem_range.mp hj
      rw [hBoff i j hi (by omega) (by omega)]
    have hcol1 : col_offdiag_abs_sum B N lda i = dd_col_sum_lower B N lda i :=
      col_offdiag_eq_lower B N lda i hi hz2
    have hcol2 : dd_col_sum_lower B N lda i = dd_col_sum_lower A1 N lda i := by
      unfold dd_col_sum_lower
      congr 1
      apply List.map_congr_left
      intro j hj
      have hj' := List.mem_range'_1.mp hj
      rw [hBoff j i (by omega) hi (by omega)]
    have hdiag : B (i + i * lda)
        = (if dd_row_sum_lower A1 lda i + dd_col_sum_lower A1 N lda i = 0 then 1
           else (dd_row_sum_lower A1 lda i + dd_col_sum_lower A1 N lda i) * (101 / 100)) :=
      hchar.2 i hi
    have hrs0 : 0 ≤ dd_row_sum_lower A1 lda i := sum_abs_nonneg _ _
    have hcs0 : 0 ≤ dd_col_sum_lower A1 N lda i := sum_abs_nonneg _ _
    have harith := dd_dominance_arith (dd_row_sum_lower A1 lda i)
      (dd_col_sum_lower A1 N lda i) hrs0 hcs0
    refine ⟨?_, ?_, ?_⟩
    · rw [hrow1, hrow2, hcol1, hcol2, hdiag]
    · rw [hrow1, hrow2, hdiag]
      exact harith.1
    · rw [hcol1, hcol2, hdiag]
      exact harith.2

/-- Every batch instance produced by the diagonally-dominant initializer is
the single-batch fill applied to that batch's buffer at some generator
cursor. -/
theorem init_dd_mem (upper : Bool) (g : ℕ → ℚ) (M N lda : ℕ) :
    ∀ (batches : List Store) (c0 : ℕ) (B : Store),
      B ∈ (hipblas_init_matrix_dd upper g M N lda batches c0).1 →
      ∃ A c, B = (fill_dd_matrix upper g M N lda A c).1 := by
  intro batches
  induction batches with
  | nil =>
    intro c0 B hB
    simp [hipblas_init_matrix_dd] at hB
  | cons A rest ih =>
    intro c0 B hB
    simp only [hipblas_init_matrix_dd] at hB
    rcases List.mem_cons.mp hB with h | h
    · exact ⟨A, c0, h⟩
    · exact ih _ B h

/-- C2: for every batch instance, every fill mode, and every `N × N` shape
with `lda ≥ N`, after `hipblas_init_matrix` runs with the
diagonally-dominant-triangular matrix kind, each diagonal entry equals
`1.01` times the sum of the absolute values of the off-diagonal entries in
its row and column (or exactly `1` when that sum is zero), so
`|A[i][i]| ≥ Σ_{j≠i} |A[i][j]|` holds for every row and every column. -/
theorem c2_diag_dominant_init (upper : Bool) (g : ℕ → ℚ) (N lda : ℕ) (hlda : N ≤ lda)
    (batches : List Store) (c0 : ℕ) (B : Store)
    (hB : B ∈ (hipblas_init_matrix_dd upper g N N lda batches c0).1)
    (i : ℕ) (hi : i < N) :
    B (i + i * lda)
        = (if row_offdiag_abs_sum B N lda i + col_offdiag_abs_sum B N lda i = 0 then 1
           else (row_offdiag_abs_sum B N lda i + col_offdiag_abs_sum B N lda i)
             * (101 / 100)) ∧
    row_offdiag_abs_sum B N lda i ≤ |B (i + i * lda)| ∧
    col_offdiag_abs_sum B N lda i ≤ |B (i + i * lda)| := by
  obtain ⟨A, c, rfl⟩ := init_dd_mem upper g N N lda batches c0 B hB
  exact fill_dd_core upper g N lda hlda A c i hi

/-- C2 witness: one batch, `N = lda = 2`, upper fill, a constant generator. -/
theorem c2_diag_dominant_init_witness :
    (2 : ℕ) ≤ 2 ∧ (0 : ℕ) < 2 ∧
    ((fill_dd_matrix true (fun _ => 3) 2 2 2 (fun _ => 0) 0).1 (0 + 0 * 2)
        = (if row_offdiag_abs_sum (fill_dd_matrix true (fun _ => 3) 2 2 2 (fun _ => 0) 0).1
              2 2 0
            + col_offdiag_abs_sum (fill_dd_matrix true (fun _ => 3) 2 2 2 (fun _ => 0) 0).1
              2 2 0 = 0
           then 1
           else (row_offdiag_abs_sum (fill_dd_matrix true (fun _ => 3) 2 2 2 (fun _ => 0) 0).1
              2 2 0
            + col_offdiag_abs_sum (fill_dd_matrix true (fun _ => 3) 2 2 2 (fun _ => 0) 0).1
              2 2 0) * (101 / 100)) ∧
      row_offdiag_abs_sum (fill_dd_matrix true (fun _ => 3) 2 2 2 (fun _ => 0) 0).1 2 2 0
        ≤ |(fill_dd_matrix true (fun _ => 3) 2 2 2 (fun _ => 0) 0).1 (0 + 0 * 2)| ∧
      col_offdiag_abs_sum (fill_dd_matrix true (fun _ => 3) 2 2 2 (fun _ => 0) 0).1 2 2 0
        ≤ |(fill_dd_matrix true (fun _ => 3) 2 2 2 (fun _ => 0) 0).1 (0 + 0 * 2)|) :=
  ⟨le_refl 2, by decide,
    c2_diag_dominant_init true (fun _ => 3) 2 2 (le_refl 2) [fun _ => 0] 0
      (fill_dd_matrix true (fun _ => 3) 2 2 2 (fun _ => 0) 0).1 (List.Mem.head _)
      0 (by decide)⟩

/-! ## C3 support lemmas -/

/-- One row of the shared hermitian/symmetric loop: row `i` consumes one
generated value per pair `(i, j)`, `j < m ≤ i+1`; the stored-triangle
position `j + i*lda` and the mirrored position `i + j*lda` receive the
branch-dependent values, and everything else is untouched. -/
theorem fill_mirrored_row_char (diagV mirrorV : CQ → CQ) (uplo : Char) (g : ℕ → CQ)
    (lda i : ℕ) (hi : i < lda) :
    ∀ (m : ℕ), m ≤ i + 1 → ∀ (s : CStore × ℕ),
      (((List.range m).foldl
        (fun s j =>
          let value := g s.2
          let s1 :=
            if i = j then
              Function.update s.1 (j + i * lda) (diagV value)
            else if uplo = 'U' then
              Function.update (Function.update s.1 (j + i * lda) value) (i + j * lda) (0, 0)
            else if uplo = 'L' then
              Function.update (Function.update s.1 (j + i * lda) (0, 0)) (i + j * lda) value
            else
              Function.update (Function.update s.1 (j + i * lda) value) (i + j * lda)
                (mirrorV value)
          (s1, s.2 + 1)) s).2 = s.2 + m) ∧
      (∀ j, j < m →
        (((List.range m).foldl
          (fun s j =>
            let value := g s.2
            let s1 :=
              if i = j then
                Function.update s.1 (j + i * lda) (diagV value)
              else if uplo = 'U' then
                Function.update (Function.update s.1 (j + i * lda) value) (i + j * lda) (0, 0)
              else if uplo = 'L' then
                Function.update (Function.update s.1 (j + i * lda) (0, 0)) (i + j * lda) value
              else
                Function.update (Function.update s.1 (j + i * lda) value) (i + j * lda)
                  (mirrorV value)
            (s1, s.2 + 1)) s).1 (j + i * lda)
            = (if i = j then diagV (g (s.2 + j))
               else if uplo = 'U' then g (s.2 + j)
               else if uplo = 'L' then (0, 0)
               else g (s.2 + j)) ∧
         (j < i →
          ((List.range m).foldl
            (fun s j =>
              let value := g s.2
              let s1 :=
                if i = j then
                  Function.update s.1 (j + i * lda) (diagV value)
                else if uplo = 'U' then
                  Function.update (Function.update s.1 (j + i * lda) value) (i + j * lda) (0, 0)
                else if uplo = 'L' then
                  Function.update (Function.update s.1 (j + i * lda) (0, 0)) (i + j * lda) value
                else
                  Function.update (Function.update s.1 (j + i * lda) value) (i + j * lda)
                    (mirrorV value)
              (s1, s.2 + 1)) s).1 (i + j * lda)
              = (if uplo = 'U' then (0, 0)
                 else if uplo = 'L' then g (s.2 + j)
                 else mirrorV (g (s.2 + j)))))) ∧
      (∀ idx, (∀ j, j < m → idx ≠ j + i * lda ∧ idx ≠ i + j * lda) →
        (((List.range m).foldl
          (fun s j =>
            let value := g s.2
            let s1 :=
              if i = j then
                Function.update s.1 (j + i * lda) (diagV value)
              else if uplo = 'U' then
                Function.update (Function.update s.1 (j + i * lda) value) (i + j * lda) (0, 0)
              else if uplo = 'L' then
                Function.update (Function.update s.1 (j + i * lda) (0, 0)) (i + j * lda) value
              else
                Function.update (Function.update s.1 (j + i * lda) value) (i + j * lda)
                  (mirrorV value)
            (s1, s.2 + 1)) s).1 idx = s.1 idx)) := by
  intro m
  induction m with
  | zero =>
    intro _ s
    refine ⟨rfl, ?_, ?_⟩
    · intro j hj; omega
    · intro idx _; rfl
  | succ m ih =>
    intro hm s
    obtain ⟨ihc, ihv, ihf⟩ := ih (by omega) s
    dsimp only at ihc ihv ihf
    simp only [List.range_succ, List.foldl_append, List.foldl_cons, List.foldl_nil]
    by_cases hd : i = m
    · -- diagonal pair (i, i)
      rw [if_pos hd]
      refine ⟨by omega, ?_, ?_⟩
      · intro j hj
        rcases Nat.lt_or_ge j m with hlt | hge
        · have hne1 : j + i * lda ≠ m + i * lda := by omega
          constructor
          · rw [Function.update_noteq hne1]
            exact (ihv j hlt).1
          · intro hji
            have hne2 : i + j * lda ≠ m + i * lda := by
              intro heq
              have := colIdx_inj2 lda (by omega) (by omega) heq
              omega
            rw [Function.update_noteq hne2]
            exact (ihv j hlt).2 hji
        · have hje : j = m := by omega
          subst hje
          constructor
          · rw [if_pos hd, Function.update_same, ihc]
          · intro hji; omega
      · intro idx hidx
        rw [Function.update_noteq (hidx m (by omega)).1]
        exact ihf idx (fun j hj => hidx j (by omega))
    · -- off-diagonal pair (i, m), m < i
      have hmi : m < i := by omega
      rw [if_neg hd]
      have hshape : ∀ (X : CStore) (value : CQ),
          (if uplo = 'U' then
            Function.update (Function.update X (m + i * lda) value) (i + m * lda) (0, 0)
          else if uplo = 'L' then
            Function.update (Function.update X (m + i * lda) (0, 0)) (i + m * lda) value
          else
            Function.update (Function.update X (m + i * lda) value) (i + m * lda)
              (mirrorV value))
          = Function.update
              (Function.update X (m + i * lda)
                (if uplo = 'U' then value else if uplo = 'L' then (0, 0) else value))
              (i + m * lda)
              (if uplo = 'U' then (0, 0)
               else if uplo = 'L' then value
               else mirrorV value) := by
        intro X value
        by_cases hU : uplo = 'U'
        · rw [if_pos hU, if_pos hU, if_pos hU]
        · rw [if_neg hU, if_neg hU, if_neg hU]
          by_cases hL : uplo = 'L'
          · rw [if_pos hL, if_pos hL, if_pos hL]
          · rw [if_neg hL, if_neg hL, if_neg hL]
      rw [hshape]
      have hp12 : m + i * lda ≠ i + m * lda := by
        intro heq
        have := colIdx_inj2 lda (by omega) (by omega) heq
        omega
      refine ⟨by omega, ?_, ?_⟩
      · intro j hj
        rcases Nat.lt_or_ge j m with hlt | hge
        · have hne1 : j + i * lda ≠ i + m * lda := by
            intro heq
            have := colIdx_inj2 lda (by omega) (by omega) heq
            omega
          have hne2 : j + i * lda ≠ m + i * lda := by omega
          constructor
          · rw [Function.update_noteq hne1, Function.update_noteq hne2]
            exact (ihv j hlt).1
          · intro hji
            have hne3 : i + j * lda ≠ i + m * lda := by
              intro heq
              have := colIdx_inj2 lda (by omega) (by omega) heq
              omega
            have hne4 : i + j * lda ≠ m + i * lda := by
              intro heq
              have := colIdx_inj2 lda (by omega) (by omega) heq
              omega
            rw [Function.update_noteq hne3, Function.update_noteq hne4]
            exact (ihv j hlt).2 hji
        · have hje : j = m := by omega
          subst hje
          constructor
          · rw [Function.update_noteq hp12, Function.update_same, if_neg hd, ihc]
          · intro _
            rw [Function.update_same, ihc]
      · intro idx hidx
        rw [Function.update_noteq (hidx m (by omega)).2,
          Function.update_noteq (hidx m (by omega)).1]
        exact ihf idx (fun j hj => hidx j (by omega))

/-- Unfolding one outer (row) iteration of the hermitian/symmetric loop. -/
theorem fill_mirrored_succ (diagV mirrorV : CQ → CQ) (uplo : Char) (g : ℕ → CQ)
    (N lda : ℕ) (s0 : CStore × ℕ) :
    fill_mirrored diagV mirrorV uplo g (N + 1) lda s0 =
      (List.range (N + 1)).foldl
        (fun s j =>
          let value := g s.2
          let s1 :=
            if N = j then
              Function.update s.1 (j + N * lda) (diagV value)
            else if uplo = 'U' then
              Function.update (Function.update s.1 (j + N * lda) value) (N + j * lda) (0, 0)
            else if uplo = 'L' then
              Function.update (Function.update s.1 (j + N * lda) (0, 0)) (N + j * lda) value
            else
              Function.update (Function.update s.1 (j + N * lda) value) (N + j * lda)
                (mirrorV value)
          (s1, s.2 + 1))
        (fill_mirrored diagV mirrorV uplo g N lda s0) := by
  conv_lhs =>
    simp only [fill_mirrored]
    rw [List.range_succ, List.foldl_append, List.foldl_cons, List.foldl_nil]
  rfl

/-- Full characterization of the shared hermitian/symmetric loop on an
`N × N` matrix with `N ≤ lda`: for every pair `(i, j)`, `j ≤ i`, the
diagonal holds `diagV` of the generated value, the `uplo`-selected
triangle position holds the generated value (`'U'`)/zero (`'L'`), and the
mirrored position holds zero (`'U'`)/the value (`'L'`)/`mirrorV` of the
value (any other fill mode). -/
theorem fill_mirrored_char (diagV mirrorV : CQ → CQ) (uplo : Char) (g : ℕ → CQ) (lda : ℕ) :
    ∀ (N : ℕ) (s0 : CStore × ℕ), N ≤ lda →
      ((fill_mirrored diagV mirrorV uplo g N lda s0).2 = s0.2 + Tn N) ∧
      (∀ i j, i < N → j ≤ i →
        ((fill_mirrored diagV mirrorV uplo g N lda s0).1 (j + i * lda)
            = (if i = j then diagV (g (s0.2 + Tn i + j))
               else if uplo = 'U' then g (s0.2 + Tn i + j)
               else if uplo = 'L' then (0, 0)
               else g (s0.2 + Tn i + j)) ∧
         (j < i →
           (fill_mirrored diagV mirrorV uplo g N lda s0).1 (i + j * lda)
              = (if uplo = 'U' then (0, 0)
                 else if uplo = 'L' then g (s0.2 + Tn i + j)
                 else mirrorV (g (s0.2 + Tn i + j)))))) := by
  intro N
  induction N with
  | zero =>
    intro s0 _
    refine ⟨rfl, ?_⟩
    intro i j hi; omega
  | succ n ih =>
    intro s0 hn
    obtain ⟨ihc, ihv⟩ := ih s0 (by omega)
    rw [fill_mirrored_succ]
    obtain ⟨rc, rv, rf⟩ := fill_mirrored_row_char diagV mirrorV uplo g lda n (by omega)
      (n + 1) le_rfl (fill_mirrored diagV mirrorV uplo g n lda s0)
    have ht : Tn (n + 1) = Tn n + n + 1 := rfl
    refine ⟨by omega, ?_⟩
    intro i j hi hj
    rcases Nat.lt_or_ge i n with hlt | hge
    · have hfr1 : (∀ j', j' < n + 1 →
          j + i * lda ≠ j' + n * lda ∧ j + i * lda ≠ n + j' * lda) := by
        intro j' hj'
        constructor
        · intro heq
          have := colIdx_inj2 lda (by omega) (by omega) heq
          omega
        · intro heq
          have := colIdx_inj2 lda (by omega) (by omega) heq
          omega
      constructor
      · rw [rf (j + i * lda) hfr1]
        exact (ihv i j hlt hj).1
      · intro hji
        have hfr2 : (∀ j', j' < n + 1 →
            i + j * lda ≠ j' + n * lda ∧ i + j * lda ≠ n + j' * lda) := by
          intro j' hj'
          constructor
          · intro heq
            have := colIdx_inj2 lda (by omega) (by omega) heq
            omega
          · intro heq
            have := colIdx_inj2 lda (by omega) (by omega) heq
            omega
        rw [rf (i + j * lda) hfr2]
        exact (ihv i j hlt hj).2 hji
    · have hie : i = n := by omega
      subst hie
      have hv := rv j (by omega)
      rw [ihc] at hv
      constructor
      · exact hv.1
      · intro hji
        exact hv.2 hji

/-! ## C3: hermitian/symmetric mirroring -/

/-- C3 counterexample: with fill mode `'U'`, `N = lda = 2` and the constant
generator `(1, 1)`, the hermitian branch writes `(0, 0)` — not the
conjugate `(1, -1)` of the generated entry — into the mirrored
lower-triangle position `1 + 0*lda`. -/
theorem c3_hermitian_mirror_counterexample :
    (fill_hermitian 'U' (fun _ => ((1 : ℚ), (1 : ℚ))) 2 2 ((fun _ => (0, 0)), 0)).1
        (1 + 0 * 2)
      ≠ cconj ((1 : ℚ), (1 : ℚ)) := by
  decide

/-- C3 (amended): for fill modes `'U'` and `'L'` the hermitian and
symmetric branches generator-fill only the selected triangle and write
zero — not a conjugate or a copy — into the mirrored position; the
conjugate (hermitian) or unconjugated copy (symmetric) lands in the
mirrored position only when the fill mode is neither `'U'` nor `'L'`
(`HIPBLAS_FILL_MODE_FULL`); hermitian diagonal entries are forced real in
every fill mode. -/
theorem c3_mirror_amended (g : ℕ → CQ) (N lda : ℕ) (hlda : N ≤ lda)
    (s0 : CStore × ℕ) (i j : ℕ) (hij : j < i) (hi : i < N) :
    (fill_hermitian 'U' g N lda s0).1 (i + j * lda) = (0, 0) ∧
    (fill_hermitian 'L' g N lda s0).1 (j + i * lda) = (0, 0) ∧
    (fill_symmetric 'U' g N lda s0).1 (i + j * lda) = (0, 0) ∧
    (fill_symmetric 'L' g N lda s0).1 (j + i * lda) = (0, 0) ∧
    (fill_hermitian 'U' g N lda s0).1 (j + i * lda) = g (s0.2 + Tn i + j) ∧
    (fill_hermitian 'L' g N lda s0).1 (i + j * lda) = g (s0.2 + Tn i + j) ∧
    ((fill_hermitian 'U' g N lda s0).1 (i + i * lda)).2 = 0 ∧
    ((fill_hermitian 'L' g N lda s0).1 (i + i * lda)).2 = 0 ∧
    ((fill_hermitian 'F' g N lda s0).1 (i + i * lda)).2 = 0 ∧
    (fill_hermitian 'F' g N lda s0).1 (i + j * lda)
        = cconj ((fill_hermitian 'F' g N lda s0).1 (j + i * lda)) ∧
    (fill_symmetric 'F' g N lda s0).1 (i + j * lda)
        = (fill_symmetric 'F' g N lda s0).1 (j + i * lda) := by
  have hU := (fill_mirrored_char creal cconj 'U' g lda N s0 hlda).2 i j hi (by omega)
  have hL := (fill_mirrored_char creal cconj 'L' g lda N s0 hlda).2 i j hi (by omega)
  have hF := (fill_mirrored_char creal cconj 'F' g lda N s0 hlda).2 i j hi (by omega)
  have hUs := (fill_mirrored_char (fun v => v) (fun v => v) 'U' g lda N s0 hlda).2 i j hi
    (by omega)
  have hLs := (fill_mirrored_char (fun v => v) (fun v => v) 'L' g lda N s0 hlda).2 i j hi
    (by omega)
  have hFs := (fill_mirrored_char (fun v => v) (fun v => v) 'F' g lda N s0 hlda).2 i j hi
    (by omega)
  have hUd := ((fill_mirrored_char creal cconj 'U' g lda N s0 hlda).2 i i hi le_rfl).1
  have hLd := ((fill_mirrored_char creal cconj 'L' g lda N s0 hlda).2 i i hi le_rfl).1
  have hFd := ((fill_mirrored_char creal cconj 'F' g lda N s0 hlda).2 i i hi le_rfl).1
  refine ⟨?_, ?_, ?_, ?_, ?_, ?_, ?_, ?_, ?_, ?_, ?_⟩
  · rw [show fill_hermitian 'U' g N lda s0 = fill_mirrored creal cconj 'U' g N lda s0
        from rfl, hU.2 hij]
    simp
  · rw [show fill_hermitian 'L' g N lda s0 = fill_mirrored creal cconj 'L' g N lda s0
        from rfl, hL.1, if_neg (show ¬i = j by omega), if_neg (show ¬('L' = 'U') by decide),
      if_pos (show 'L' = 'L' from rfl)]
  · rw [show fill_symmetric 'U' g N lda s0
        = fill_mirrored (fun v => v) (fun v => v) 'U' g N lda s0 from rfl, hUs.2 hij]
    simp
  · rw [show fill_symmetric 'L' g N lda s0
        = fill_mirrored (fun v => v) (fun v => v) 'L' g N lda s0 from rfl, hLs.1,
      if_neg (show ¬i = j by omega), if_neg (show ¬('L' = 'U') by decide),
      if_pos (show 'L' = 'L' from rfl)]
  · rw [show fill_hermitian 'U' g N lda s0 = fill_mirrored creal cconj 'U' g N lda s0
        from rfl, hU.1, if_neg (show ¬i = j by omega), if_pos (show 'U' = 'U' from rfl)]
  · rw [show fill_hermitian 'L' g N lda s0 = fill_mirrored creal cconj 'L' g N lda s0
        from rfl, hL.2 hij]
    simp
  · rw [show fill_hermitian 'U' g N lda s0 = fill_mirrored creal cconj 'U' g N lda s0
        from rfl, hUd]
    simp [creal]
  · rw [show fill_hermitian 'L' g N lda s0 = fill_mirrored creal cconj 'L' g N lda s0
        from rfl, hLd]
    simp [creal]
  · rw [show fill_hermitian 'F' g N lda s0 = fill_mirrored creal cconj 'F' g N lda s0
        from rfl, hFd]
    simp [creal]
  · rw [show fill_hermitian 'F' g N lda s0 = fill_mirrored creal cconj 'F' g N lda s0
        from rfl, hF.1, hF.2 hij, if_neg (show ¬i = j by omega),
      if_neg (show ¬('F' = 'U') by decide), if_neg (show ¬('F' = 'L') by decide)]
    simp
  · rw [show fill_symmetric 'F' g N lda s0
        = fill_mirrored (fun v => v) (fun v => v) 'F' g N lda s0 from rfl, hFs.1,
      hFs.2 hij]
    simp [(by omega : i ≠ j)]

/-- C3 witness: `N = lda = 2`, pair `(1, 0)`, constant generator. -/
theorem c3_mirror_amended_witness :
    (2 : ℕ) ≤ 2 ∧ (0 : ℕ) < 1 ∧ (1 : ℕ) < 2 ∧
    (fill_hermitian 'U' (fun _ => ((1 : ℚ), (1 : ℚ))) 2 2 ((fun _ => (0, 0)), 0)).1
        (1 + 0 * 2) = (0, 0) :=
  ⟨le_refl 2, by decide, by decide,
    (c3_mirror_amended (fun _ => ((1 : ℚ), (1 : ℚ))) 2 2 (le_refl 2) ((fun _ => (0, 0)), 0)
      1 0 (by decide) (by decide)).1⟩

/-! ## C6/C7 support lemmas -/

/-- Triangular numbers are monotone. -/
theorem Tn_mono : ∀ {a b : ℕ}, a ≤ b → Tn a ≤ Tn b := by
  intro a b h
  induction b with
  | zero => have : a = 0 := by omega
            subst this; exact le_refl _
  | succ m ih =>
    rcases Nat.lt_or_ge a (m + 1) with hlt | hge
    · have h2 := ih (by omega)
      have h3 : Tn (m + 1) = Tn m + m + 1 := rfl
      omega
    · have : a = m + 1 := by omega
      subst this; exact le_refl _

/-- Lower packed column starts are monotone. -/
theorem lowStart_mono (n : ℕ) : ∀ {a b : ℕ}, a ≤ b → lowStart n a ≤ lowStart n b := by
  intro a b h
  induction b with
  | zero => have : a = 0 := by omega
            subst this; exact le_refl _
  | succ m ih =>
    rcases Nat.lt_or_ge a (m + 1) with hlt | hge
    · have h2 := ih (by omega)
      have h3 : lowStart n (m + 1) = lowStart n m + (n - m) := rfl
      omega
    · have : a = m + 1 := by omega
      subst this; exact le_refl _

/-- Characterization of one upper packed column. -/
theorem pack_col_upper_char (A : Store) (n i : ℕ) (s : Store × ℕ) :
    (pack_col_upper A n i s).2 = s.2 + (i + 1) ∧
    (∀ t, t < i + 1 → (pack_col_upper A n i s).1 (s.2 + t) = A (t + i * n)) ∧
    (∀ idx, idx < s.2 → (pack_col_upper A n i s).1 idx = s.1 idx) := by
  have h := foldl_pack_char (fun j => A (j + i * n)) (i + 1) 0 s
  rw [show List.range' 0 (i + 1) = List.range (i + 1) from
    (List.range_eq_range' (i + 1)).symm] at h
  exact ⟨h.1, fun t ht => by have h2 := h.2.1 t ht; simpa using h2, h.2.2⟩

/-- Characterization of one lower packed column. -/
theorem pack_col_lower_char (A : Store) (n i : ℕ) (s : Store × ℕ) :
    (pack_col_lower A n i s).2 = s.2 + (n - i) ∧
    (∀ t, t < n - i → (pack_col_lower A n i s).1 (s.2 + t) = A ((i + t) + i * n)) ∧
    (∀ idx, idx < s.2 → (pack_col_lower A n i s).1 idx = s.1 idx) := by
  have h := foldl_pack_char (fun j => A (j + i * n)) (n - i) i s
  exact ⟨h.1, fun t ht => by have h2 := h.2.1 t ht; simpa using h2, h.2.2⟩

/-- Outer characterization of the upper packed conversion: after `t`
columns the running index is `Tn t` and every processed entry sits at its
standard packed offset. -/
theorem pack_upper_aux (A AP : Store) (n : ℕ) :
    ∀ t, (((List.range t).foldl (fun s i => pack_col_upper A n i s) (AP, 0)).2 = Tn t) ∧
      (∀ c r, c < t → r ≤ c →
        ((List.range t).foldl (fun s i => pack_col_upper A n i s) (AP, 0)).1 (Tn c + r)
          = A (r + c * n)) := by
  intro t
  induction t with
  | zero =>
    refine ⟨rfl, ?_⟩
    intro c r hc; omega
  | succ m ih =>
    obtain ⟨ihc, ihv⟩ := ih
    simp only [List.range_succ, List.foldl_append, List.foldl_cons, List.foldl_nil]
    set P := (List.range m).foldl (fun s i => pack_col_upper A n i s) (AP, 0) with hP
    obtain ⟨hc, hv, hf⟩ := pack_col_upper_char A n m P
    have hTn : Tn (m + 1) = Tn m + m + 1 := rfl
    refine ⟨by omega, ?_⟩
    intro c r hcm hrc
    rcases Nat.lt_or_ge c m with hlt | hge
    · have hpos : Tn c + r < Tn m := by
        have h1 := Tn_mono (show c + 1 ≤ m by omega)
        have h2 : Tn (c + 1) = Tn c + c + 1 := rfl
        omega
      rw [hf (Tn c + r) (by omega)]
      exact ihv c r hlt hrc
    · have hce : c = m := by omega
      subst hce
      have h2 := hv r (by omega)
      rw [ihc] at h2
      exact h2

/-- Outer characterization of the lower packed conversion. -/
theorem pack_lower_aux (A AP : Store) (n : ℕ) :
    ∀ t, t ≤ n →
      (((List.range t).foldl (fun s i => pack_col_lower A n i s) (AP, 0)).2 = lowStart n t) ∧
      (∀ c r, c < t → c ≤ r → r < n →
        ((List.range t).foldl (fun s i => pack_col_lower A n i s) (AP, 0)).1
            (lowStart n c + (r - c)) = A (r + c * n)) := by
  intro t
  induction t with
  | zero =>
    intro _
    refine ⟨rfl, ?_⟩
    intro c r hc; omega
  | succ m ih =>
    intro hm
    obtain ⟨ihc, ihv⟩ := ih (by omega)
    simp only [List.range_succ, List.foldl_append, List.foldl_cons, List.foldl_nil]
    set P := (List.range m).foldl (fun s i => pack_col_lower A n i s) (AP, 0) with hP
    obtain ⟨hc, hv, hf⟩ := pack_col_lower_char A n m P
    have hls : lowStart n (m + 1) = lowStart n m + (n - m) := rfl
    refine ⟨by omega, ?_⟩
    intro c r hcm hcr hr
    rcases Nat.lt_or_ge c m with hlt | hge
    · have hpos : lowStart n c + (r - c) < lowStart n m := by
        have h1 := lowStart_mono n (show c + 1 ≤ m by omega)
        have h2 : lowStart n (c + 1) = lowStart n c + (n - c) := rfl
        omega
      rw [hf (lowStart n c + (r - c)) (by omega)]
      exact ihv c r hlt hcr hr
    · have hce : c = m := by omega
      subst hce
      have h2 := hv (r - c) (by omega)
      rw [ihc] at h2
      have h3 : c + (r - c) = r := by omega
      rw [h3] at h2
      exact h2

/-! ## C6: dense-to-packed conversion -/

/-- C6 counterexample: for the lower triangle the converter does NOT visit
row-by-row.  With `n = 3` and `A[t] = t`, the packed element at the
row-major lower index of entry `(1,1)` is `A[2]` (column-major visitation:
column 0 rows 0..2 come first), not `A[1 + 1*3]` as a row-by-row
linearization would give. -/
theorem c6_lower_rowmajor_counterexample :
    regular_to_packed false (fun t => (t : ℚ)) (fun _ => 0) 3
        (packed_lower_rowmajor_index 1 1)
      ≠ ((1 + 1 * 3 : ℕ) : ℚ) := by
  decide

/-- C6 (amended): the converter linearizes the selected triangle
column-by-column for BOTH fill modes — upper: column `c` stores rows
`0..c`; lower: column `c` stores rows `c..n-1` — with the packed index
advancing by exactly one per stored element, so the output matches
standard packed-triangular addressing `packIdx`. -/
theorem c6_packed_addressing_amended (A AP : Store) (n r c : ℕ)
    (hc : c < n) (hr : r < n) :
    (r ≤ c → regular_to_packed true A AP n (packIdx true n r c) = A (r + c * n)) ∧
    (c ≤ r → regular_to_packed false A AP n (packIdx false n r c) = A (r + c * n)) := by
  constructor
  · intro hrc
    exact (pack_upper_aux A AP n n).2 c r hc hrc
  · intro hcr
    exact (pack_lower_aux A AP n n le_rfl).2 c r hc hcr hr

/-- C6 witness: `n = 3`, entry `(1,1)`, `A[t] = t`. -/
theorem c6_packed_addressing_amended_witness :
    (1 : ℕ) < 3 ∧
    regular_to_packed true (fun t => (t : ℚ)) (fun _ => 0) 3 (packIdx true 3 1 1)
      = ((1 + 1 * 3 : ℕ) : ℚ) :=
  ⟨by decide,
    (c6_packed_addressing_amended (fun t => (t : ℚ)) (fun _ => 0) 3 1 1
      (by decide) (by decide)).1 (by decide)⟩

/-! ## C7: pack / unpack round trip -/

/-- C7: for every `n` in `[1, 65]`, both fill modes, and every input
matrix, packing followed by the inverse unpack (reading the packed buffer
at the standard packed offset of each triangle coordinate) reproduces the
selected triangle exactly. -/
theorem c7_pack_unpack_roundtrip (upper : Bool) (A AP : Store) (n r c : ℕ)
    (h1 : 1 ≤ n) (h65 : n ≤ 65) (hc : c < n) (hr : r < n)
    (htri : if upper then r ≤ c else c ≤ r) :
    packed_to_regular upper (regular_to_packed upper A AP n) n r c = A (r + c * n) := by
  cases upper with
  | true =>
    exact (pack_upper_aux A AP n n).2 c r hc (by simpa using htri)
  | false =>
    exact (pack_lower_aux A AP n n le_rfl).2 c r hc (by simpa using htri) hr

/-- C7 witness: `n = 2`, upper, entry `(0, 1)`, `A[t] = t`. -/
theorem c7_pack_unpack_roundtrip_witness :
    (1 : ℕ) ≤ 2 ∧ (2 : ℕ) ≤ 65 ∧
    packed_to_regular true (regular_to_packed true (fun t => (t : ℚ)) (fun _ => 0) 2) 2 0 1
      = ((0 + 1 * 2 : ℕ) : ℚ) :=
  ⟨by decide, by decide,
    c7_pack_unpack_roundtrip true (fun t => (t : ℚ)) (fun _ => 0) 2 0 1
      (by decide) (by decide) (by decide) (by decide) (by decide)⟩

/-! ## C8 support lemmas -/

/-- Column-major banded indices `j * ldab + r` with `r < ldab` decode
uniquely. -/
theorem bandIdx_inj {ldab j j' r r' : ℕ} (hr : r < ldab) (hr' : r' < ldab)
    (h : j * ldab + r = j' * ldab + r') : j = j' ∧ r = r' := by
  have h0 : r + j * ldab = r' + j' * ldab := by omega
  have h2 := colIdx_inj2 ldab hr hr' h0
  omega

/-- `banded_col` at `upper = true`, with its `if`s and `let`s reduced. -/
theorem banded_col_true_eq (A : Store) (lda ldab n k : ℕ) (g : ℕ → ℚ) (j : ℕ)
    (s : Store × ℕ) :
    banded_col true A lda ldab n k g j s =
      (List.range (k - j)).foldl
        (fun s i => (Function.update s.1 (j * ldab + i) (g s.2), s.2 + 1))
        ((List.range' (k + 1) (ldab - (k + 1))).foldl
          (fun s i => (Function.update s.1 (j * ldab + i) (g s.2), s.2 + 1))
          ((List.range' (j - k) (j + 1 - (j - k))).foldl
            (fun s i =>
              (Function.update s.1 (j * ldab + (k + i - j)) (A (j * lda + i)), s.2))
            s)) := rfl

/-- `banded_col` at `upper = false`, with its `if`s and `let`s reduced. -/
theorem banded_col_false_eq (A : Store) (lda ldab n k : ℕ) (g : ℕ → ℚ) (j : ℕ)
    (s : Store × ℕ) :
    banded_col false A lda ldab n k g j s =
      (List.range' (min (k + 1) (n - j)) (ldab - min (k + 1) (n - j))).foldl
        (fun s i => (Function.update s.1 (j * ldab + i) (g s.2), s.2 + 1))
        ((List.range' j (min (n - 1) (j + k) + 1 - j)).foldl
          (fun s i => (Function.update s.1 (j * ldab + (i - j)) (A (j * lda + i)), s.2))
          s) := rfl

/-- Characterization of one column of the upper-banded conversion: band
entries come from `A`, every other row of the column is a generator value,
and all other positions are untouched. -/
theorem banded_col_char_upper (A : Store) (lda ldab n k : ℕ) (g : ℕ → ℚ) (j : ℕ)
    (hk : k < ldab) (s : Store × ℕ) :
    (∀ i, j - k ≤ i → i ≤ j →
      (banded_col true A lda ldab n k g j s).1 (j * ldab + (k + i - j))
        = A (j * lda + i)) ∧
    (∀ r, r < ldab → (r < k - j ∨ k < r) →
      ∃ t, (banded_col true A lda ldab n k g j s).1 (j * ldab + r) = g t) ∧
    (∀ idx, (∀ r, r < ldab → idx ≠ j * ldab + r) →
      (banded_col true A lda ldab n k g j s).1 idx = s.1 idx) := by
  rw [banded_col_true_eq, List.range_eq_range']
  set S1 := (List.range' (j - k) (j + 1 - (j - k))).foldl
    (fun s i =>
      (Function.update s.1 (j * ldab + (k + i - j)) (A (j * lda + i)), s.2)) s with hS1
  set S2 := (List.range' (k + 1) (ldab - (k + 1))).foldl
    (fun s i => (Function.update s.1 (j * ldab + i) (g s.2), s.2 + 1)) S1 with hS2
  obtain ⟨-, h1v, h1f⟩ := foldl_store_write (fun i => j * ldab + (k + i - j))
    (fun i => A (j * lda + i)) (j + 1 - (j - k)) (j - k) s
  obtain ⟨-, h2v, h2f⟩ := foldl_gwrite_char g (j * ldab) (ldab - (k + 1)) (k + 1) S1
  obtain ⟨-, h3v, h3f⟩ := foldl_gwrite_char g (j * ldab) (k - j) 0 S2
  rw [← hS1] at h1v h1f
  rw [← hS2] at h2v h2f
  refine ⟨?_, ?_, ?_⟩
  · intro i hi1 hi2
    rw [h3f _ (by intro i' hi'1 hi'2; omega), h2f _ (by intro i' hi'1 hi'2; omega)]
    exact h1v (by intro i1 _ _ i2 _ _ h; omega) i hi1 (by omega)
  · intro r hr hcase
    rcases hcase with hlt | hgt
    · exact ⟨_, h3v r (by omega) (by omega)⟩
    · refine ⟨S1.2 + (r - (k + 1)), ?_⟩
      rw [h3f _ (by intro i' hi'1 hi'2; omega)]
      exact h2v r (by omega) (by omega)
  · intro idx hidx
    rw [h3f _ (by intro i' hi'1 hi'2; exact hidx _ (by omega)),
      h2f _ (by intro i' hi'1 hi'2; exact hidx _ (by omega)),
      h1f _ (by intro i' hi'1 hi'2; exact hidx _ (by omega))]

/-- Characterization of one column of the lower-banded conversion: band
entries come from `A`, every row of the column below the band is a generator
value, and all other positions are untouched. -/
theorem banded_col_char_lower (A : Store) (lda ldab n k : ℕ) (g : ℕ → ℚ) (j : ℕ)
    (hk : k < ldab) (hj : j < n) (s : Store × ℕ) :
    (∀ i, j ≤ i → i ≤ min (n - 1) (j + k) →
      (banded_col false A lda ldab n k g j s).1 (j * ldab + (i - j))
        = A (j * lda + i)) ∧
    (∀ r, r < ldab → min (n - 1 - j) k < r →
      ∃ t, (banded_col false A lda ldab n k g j s).1 (j * ldab + r) = g t) ∧
    (∀ idx, (∀ r, r < ldab → idx ≠ j * ldab + r) →
      (banded_col false A lda ldab n k g j s).1 idx = s.1 idx) := by
  rw [banded_col_false_eq]
  set S1 := (List.range' j (min (n - 1) (j + k) + 1 - j)).foldl
    (fun s i =>
      (Function.update s.1 (j * ldab + (i - j)) (A (j * lda + i)), s.2)) s with hS1
  obtain ⟨-, h1v, h1f⟩ := foldl_store_write (fun i => j * ldab + (i - j))
    (fun i => A (j * lda + i)) (min (n - 1) (j + k) + 1 - j) j s
  obtain ⟨-, h2v, h2f⟩ := foldl_gwrite_char g (j * ldab)
    (ldab - min (k + 1) (n - j)) (min (k + 1) (n - j)) S1
  rw [← hS1] at h1v h1f
  refine ⟨?_, ?_, ?_⟩
  · intro i hi1 hi2
    rw [h2f _ (by intro i' hi'1 hi'2; omega)]
    exact h1v (by intro i1 _ _ i2 _ _ h; omega) i hi1 (by omega)
  · intro r hr hgt
    refine ⟨S1.2 + (r - min (k + 1) (n - j)), ?_⟩
    exact h2v r (by omega) (by omega)
  · intro idx hidx
    rw [h2f _ (by intro i' hi'1 hi'2; exact hidx _ (by omega)),
      h1f _ (by intro i' hi'1 hi'2; exact hidx _ (by omega))]

/-- Outer characterization of the upper-banded conversion fold: each
processed column holds its band entries from `A` and generator values
elsewhere, and later columns do not disturb earlier ones. -/
theorem regular_to_banded_fold_upper (A : Store) (lda ldab n k : ℕ) (g : ℕ → ℚ)
    (hk : k < ldab) :
    ∀ (t : ℕ) (AB : Store) (c0 : ℕ), ∀ j, j < t →
      (∀ i, j - k ≤ i → i ≤ j →
        ((List.range t).foldl (fun s j => banded_col true A lda ldab n k g j s)
            (AB, c0)).1 (j * ldab + (k + i - j)) = A (j * lda + i)) ∧
      (∀ r, r < ldab → (r < k - j ∨ k < r) →
        ∃ u, ((List.range t).foldl (fun s j => banded_col true A lda ldab n k g j s)
            (AB, c0)).1 (j * ldab + r) = g u) := by
  intro t
  induction t with
  | zero => intro AB c0 j hj; exact absurd hj (Nat.not_lt_zero j)
  | succ m ih =>
    intro AB c0 j hj
    rw [List.range_succ]
    simp only [List.foldl_append, List.foldl_cons, List.foldl_nil]
    set P := (List.range m).foldl (fun s j => banded_col true A lda ldab n k g j s)
      (AB, c0) with hP
    obtain ⟨hbv, hrv, hfr⟩ := banded_col_char_upper A lda ldab n k g m hk P
    rcases Nat.lt_or_ge j m with hjm | hjm
    · obtain ⟨ihb, ihr⟩ := ih AB c0 j hjm
      rw [← hP] at ihb ihr
      constructor
      · intro i hi1 hi2
        have hne : ∀ r', r' < ldab → j * ldab + (k + i - j) ≠ m * ldab + r' := by
          intro r' hr' hcontra
          obtain ⟨hje, -⟩ := bandIdx_inj (by omega) hr' hcontra
          omega
        rw [hfr _ hne]
        exact ihb i hi1 hi2
      · intro r hr hcase
        obtain ⟨u, hu⟩ := ihr r hr hcase
        have hne : ∀ r', r' < ldab → j * ldab + r ≠ m * ldab + r' := by
          intro r' hr' hcontra
          obtain ⟨hje, -⟩ := bandIdx_inj hr hr' hcontra
          omega
        refine ⟨u, ?_⟩
        rw [hfr _ hne]
        exact hu
    · have hje : j = m := by omega
      subst hje
      exact ⟨hbv, hrv⟩

/-- Outer characterization of the lower-banded conversion fold. -/
theorem regular_to_banded_fold_lower (A : Store) (lda ldab n k : ℕ) (g : ℕ → ℚ)
    (hk : k < ldab) :
    ∀ (t : ℕ), t ≤ n → ∀ (AB : Store) (c0 : ℕ), ∀ j, j < t →
      (∀ i, j ≤ i → i ≤ min (n - 1) (j + k) →
        ((List.range t).foldl (fun s j => banded_col false A lda ldab n k g j s)
            (AB, c0)).1 (j * ldab + (i - j)) = A (j * lda + i)) ∧
      (∀ r, r < ldab → min (n - 1 - j) k < r →
        ∃ u, ((List.range t).foldl (fun s j => banded_col false A lda ldab n k g j s)
            (AB, c0)).1 (j * ldab + r) = g u) := by
  intro t
  induction t with
  | zero => intro _ AB c0 j hj; exact absurd hj (Nat.not_lt_zero j)
  | succ m ih =>
    intro htn AB c0 j hj
    rw [List.range_succ]
    simp only [List.foldl_append, List.foldl_cons, List.foldl_nil]
    set P := (List.range m).foldl (fun s j => banded_col false A lda ldab n k g j s)
      (AB, c0) with hP
    obtain ⟨hbv, hrv, hfr⟩ := banded_col_char_lower A lda ldab n k g m hk
      (by omega) P
    rcases Nat.lt_or_ge j m with hjm | hjm
    · obtain ⟨ihb, ihr⟩ := ih (by omega) AB c0 j hjm
      rw [← hP] at ihb ihr
      constructor
      · intro i hi1 hi2
        have hne : ∀ r', r' < ldab → j * ldab + (i - j) ≠ m * ldab + r' := by
          intro r' hr' hcontra
          obtain ⟨hje, -⟩ := bandIdx_inj (by omega) hr' hcontra
          omega
        rw [hfr _ hne]
        exact ihb i hi1 hi2
      · intro r hr hcase
        obtain ⟨u, hu⟩ := ihr r hr hcase
        have hne : ∀ r', r' < ldab → j * ldab + r ≠ m * ldab + r' := by
          intro r' hr' hcontra
          obtain ⟨hje, -⟩ := bandIdx_inj hr hr' hcontra
          omega
        refine ⟨u, ?_⟩
        rw [hfr _ hne]
        exact hu
    · have hje : j = m := by omega
      subst hje
      exact ⟨hbv, hrv⟩

/-- C8: for each column j of an n x n matrix with k sub/super-diagonals, the
dense-to-banded converter copies exactly the declared band entries (rows
max(0,j-k)..j for upper at row offset k+i-j, rows j..min(n-1,j+k) for lower
at row offset i-j) into the banded storage, and overwrites every non-band
storage slot of that column with a freshly generated value of the stream g,
which is never zero whenever the stream avoids zero. -/
theorem c8_banded_conversion (A AB : Store) (lda ldab n k : ℕ) (g : ℕ → ℚ)
    (c0 : ℕ) (hk : k < ldab) (hg : ∀ t, g t ≠ 0) (j : ℕ) (hj : j < n) :
    (∀ i, j - k ≤ i → i ≤ j →
      (regular_to_banded true A lda AB ldab n k g c0).1 (j * ldab + (k + i - j))
        = A (j * lda + i)) ∧
    (∀ r, r < ldab → (r < k - j ∨ k < r) →
      ∃ u, (regular_to_banded true A lda AB ldab n k g c0).1 (j * ldab + r) = g u ∧
        (regular_to_banded true A lda AB ldab n k g c0).1 (j * ldab + r) ≠ 0) ∧
    (∀ i, j ≤ i → i ≤ min (n - 1) (j + k) →
      (regular_to_banded false A lda AB ldab n k g c0).1 (j * ldab + (i - j))
        = A (j * lda + i)) ∧
    (∀ r, r < ldab → min (n - 1 - j) k < r →
      ∃ u, (regular_to_banded false A lda AB ldab n k g c0).1 (j * ldab + r) = g u ∧
        (regular_to_banded false A lda AB ldab n k g c0).1 (j * ldab + r) ≠ 0) := by
  obtain ⟨hub, hur⟩ := regular_to_banded_fold_upper A lda ldab n k g hk n AB c0 j hj
  obtain ⟨hlb, hlr⟩ := regular_to_banded_fold_lower A lda ldab n k g hk n le_rfl
    AB c0 j hj
  refine ⟨?_, ?_, ?_, ?_⟩
  · intro i h1 h2
    exact hub i h1 h2
  · intro r h1 h2
    obtain ⟨u, hu⟩ := hur r h1 h2
    refine ⟨u, hu, ?_⟩
    rw [show (regular_to_banded true A lda AB ldab n k g c0).1 (j * ldab + r) = g u
      from hu]
    exact hg u
  · intro i h1 h2
    exact hlb i h1 h2
  · intro r h1 h2
    obtain ⟨u, hu⟩ := hlr r h1 h2
    refine ⟨u, hu, ?_⟩
    rw [show (regular_to_banded false A lda AB ldab n k g c0).1 (j * ldab + r) = g u
      from hu]
    exact hg u

/-- Concrete witness for `c8_banded_conversion`: n = 3, k = 1, ldab = 3,
column j = 1, band entry i = 0 of the upper conversion. -/
theorem c8_banded_conversion_witness :
    (regular_to_banded true (fun t => (t : ℚ)) 3 (fun _ => 0) 3 3 1 (fun _ => 1)
        0).1 (1 * 3 + (1 + 0 - 1)) = ((1 * 3 + 0 : ℕ) : ℚ) :=
  (c8_banded_conversion (fun t => (t : ℚ)) (fun _ => 0) 3 3 3 1 (fun _ => 1) 0
      (by decide) (fun _ => one_ne_zero) 1 (by decide)).1 0 (by decide) (by decide)
